import Mathlib

/-!
# Verification of the banner-ledger engine (`banner_ledger.py`)

This development gives a shallow embedding of the persistent banner ledger:
the data model (`Row`, `Ledger`), the pure helper functions
(host extraction, registrable-domain fallback, perceptual-hash distance,
semicolon-joined multivalue fields), and the operations `observe_image`,
`_find_by_phash_near`, `_choose_advertiser`, `_load` and `save`.

Python dictionaries are modelled as insertion-ordered association lists
(`List (String × _)`): assigning to an existing key replaces the value in
place, assigning a fresh key appends at the end, and iteration follows list
order.  Strings are Lean `String`s; Python truthiness of a string is the
test `≠ ""`, and optional string arguments defaulting to `None` are modelled
as `""` (every consumer in the source treats `None` and `""` identically).

External collaborators that are not part of the repository are modelled at
their interface: the md5/perceptual-hash fingerprints of image bytes are
arbitrary function parameters where proofs need them (`_phash_hex` may fail
to decode, hence `Option`), the `imagehash` hash subtraction is the Hamming
distance between hex-digit strings, `urllib.parse.urlparse`'s netloc
extraction and the last-two-labels registrable-domain fallback (taken when
`tldextract` is unavailable) are implemented character-by-character.
-/

/-! ## Association lists modelling Python dicts -/

/-- Python `d[k]` / `k in d`: first binding of key `k`, if any. -/
def lookupA {α : Type} : List (String × α) → String → Option α
  | [], _ => none
  | (k', v) :: t, k => if k' = k then some v else lookupA t k

/-- Python `d[k] = v`: replace the value at `k` in place, else append. -/
def insertA {α : Type} : List (String × α) → String → α → List (String × α)
  | [], k, v => [(k, v)]
  | (k', v') :: t, k, v =>
    if k' = k then (k, v) :: t else (k', v') :: insertA t k v

theorem lookupA_insertA_self {α : Type} (l : List (String × α)) (k : String) (v : α) :
    lookupA (insertA l k v) k = some v := by
  induction l with
  | nil => simp [insertA, lookupA]
  | cons p t ih =>
    obtain ⟨k', v'⟩ := p
    by_cases h : k' = k
    · simp [insertA, h, lookupA]
    · simp [insertA, h, lookupA, ih]

theorem lookupA_insertA_ne {α : Type} (l : List (String × α)) (k k' : String) (v : α)
    (h : k' ≠ k) : lookupA (insertA l k v) k' = lookupA l k' := by
  induction l with
  | nil => simp [insertA, lookupA, Ne.symm h]
  | cons p t ih =>
    obtain ⟨k0, v0⟩ := p
    by_cases h0 : k0 = k
    · subst h0
      simp [insertA, lookupA, Ne.symm h]
    · simp [insertA, h0, lookupA, ih]

theorem lookupA_mem {α : Type} (l : List (String × α)) (k : String) (v : α)
    (h : lookupA l k = some v) : (k, v) ∈ l := by
  induction l with
  | nil => simp [lookupA] at h
  | cons p t ih =>
    obtain ⟨k0, v0⟩ := p
    by_cases h0 : k0 = k
    · subst h0
      simp [lookupA] at h
      simp [h]
    · simp [lookupA, h0] at h
      exact List.mem_cons_of_mem _ (ih h)

theorem lookupA_isSome_of_key_mem {α : Type} (l : List (String × α)) (k : String)
    (h : k ∈ l.map Prod.fst) : (lookupA l k).isSome := by
  induction l with
  | nil => simp at h
  | cons p t ih =>
    obtain ⟨k0, v0⟩ := p
    by_cases h0 : k0 = k
    · simp [lookupA, h0]
    · have h' : k ∈ t.map Prod.fst := by
        rcases List.mem_cons.mp h with he | he
        · exact absurd he.symm h0
        · exact he
      simp [lookupA, h0, ih h']

theorem mem_insertA {α : Type} (l : List (String × α)) (k : String) (v : α)
    (p : String × α) (h : p ∈ insertA l k v) : p = (k, v) ∨ p ∈ l := by
  induction l with
  | nil => simp [insertA] at h; simp [h]
  | cons q t ih =>
    obtain ⟨k0, v0⟩ := q
    by_cases h0 : k0 = k
    · simp [insertA, h0] at h
      rcases h with h | h
      · exact Or.inl h
      · exact Or.inr (List.mem_cons_of_mem _ h)
    · simp only [insertA, if_neg h0] at h
      rcases List.mem_cons.mp h with h | h
      · exact Or.inr (by simp [h])
      · rcases ih h with h' | h'
        · exact Or.inl h'
        · exact Or.inr (List.mem_cons_of_mem _ h')

theorem insertA_of_key_not_mem {α : Type} (l : List (String × α)) (k : String) (v : α)
    (h : k ∉ l.map Prod.fst) : insertA l k v = l ++ [(k, v)] := by
  induction l with
  | nil => simp [insertA]
  | cons q t ih =>
    obtain ⟨k0, v0⟩ := q
    have h1 : k0 ≠ k := by
      intro he
      exact h (by simp [he])
    have h2 : k ∉ t.map Prod.fst := by
      intro he
      exact h (by simp [he])
    simp [insertA, h1, ih h2]

theorem keys_insertA_of_mem {α : Type} (l : List (String × α)) (k : String) (v : α)
    (h : k ∈ l.map Prod.fst) : (insertA l k v).map Prod.fst = l.map Prod.fst := by
  induction l with
  | nil => simp at h
  | cons q t ih =>
    obtain ⟨k0, v0⟩ := q
    by_cases h0 : k0 = k
    · simp [insertA, h0]
    · have h' : k ∈ t.map Prod.fst := by
        rcases List.mem_cons.mp h with he | he
        · exact absurd he.symm h0
        · exact he
      simp [insertA, h0, ih h']

theorem nodup_keys_insertA {α : Type} (l : List (String × α)) (k : String) (v : α)
    (h : (l.map Prod.fst).Nodup) : ((insertA l k v).map Prod.fst).Nodup := by
  by_cases hm : k ∈ l.map Prod.fst
  · rw [keys_insertA_of_mem l k v hm]; exact h
  · rw [insertA_of_key_not_mem l k v hm]
    rw [List.map_append]
    simp only [List.map_cons, List.map_nil]
    rw [List.nodup_append]
    refine ⟨h, List.nodup_singleton _, ?_⟩
    intro a ha hb
    simp at hb
    exact hm (hb ▸ ha)

theorem mem_insertA_iff {α : Type} (l : List (String × α)) (k : String) (v : α)
    (hnd : (l.map Prod.fst).Nodup) (p : String × α) :
    p ∈ insertA l k v ↔ p = (k, v) ∨ (p ∈ l ∧ p.1 ≠ k) := by
  induction l with
  | nil => simp [insertA]
  | cons q t ih =>
    obtain ⟨k0, v0⟩ := q
    simp only [List.map_cons, List.nodup_cons] at hnd
    by_cases h0 : k0 = k
    · subst h0
      simp only [insertA, if_pos rfl]
      constructor
      · intro h
        rcases List.mem_cons.mp h with h | h
        · exact Or.inl h
        · refine Or.inr ⟨List.mem_cons_of_mem _ h, ?_⟩
          intro hk
          exact hnd.1 (by rw [← hk]; exact List.mem_map_of_mem Prod.fst h)
      · rintro (h | ⟨h, hk⟩)
        · exact h ▸ List.mem_cons_self _ _
        · rcases List.mem_cons.mp h with h' | h'
          · exact absurd (congrArg Prod.fst h') hk
          · exact List.mem_cons_of_mem _ h'
    · simp only [insertA, if_neg h0]
      rw [List.mem_cons, ih hnd.2]
      constructor
      · rintro (h | h | h)
        · refine Or.inr ⟨h ▸ List.mem_cons_self _ _, ?_⟩
          rw [h]; exact h0
        · exact Or.inl h
        · exact Or.inr ⟨List.mem_cons_of_mem _ h.1, h.2⟩
      · rintro (h | ⟨h, hk⟩)
        · exact Or.inr (Or.inl h)
        · rcases List.mem_cons.mp h with h' | h'
          · exact Or.inl h'
          · exact Or.inr (Or.inr ⟨h', hk⟩)

theorem lookupA_of_mem_nodup {α : Type} (l : List (String × α)) (p : String × α)
    (hnd : (l.map Prod.fst).Nodup) (h : p ∈ l) : lookupA l p.1 = some p.2 := by
  induction l with
  | nil => simp at h
  | cons q t ih =>
    obtain ⟨k0, v0⟩ := q
    simp only [List.map_cons, List.nodup_cons] at hnd
    rcases List.mem_cons.mp h with h | h
    · rw [h]; simp [lookupA]
    · have hne : k0 ≠ p.1 := by
        intro he
        exact hnd.1 (by rw [he]; exact List.mem_map_of_mem Prod.fst h)
      simp [lookupA, hne, ih hnd.2 h]

/-! ## String helpers -/

/-- Python `str.split(sep)` at character level: splits at every separator,
keeping empty fragments (`"".split(";") == [""]`). -/
def splitCharList (sep : Char) : List Char → List (List Char)
  | [] => [[]]
  | c :: rest =>
    match splitCharList sep rest with
    | [] => [[c]]
    | h :: t => if c = sep then [] :: h :: t else (c :: h) :: t

theorem splitCharList_ne_nil (sep : Char) (cs : List Char) :
    splitCharList sep cs ≠ [] := by
  cases cs with
  | nil => simp [splitCharList]
  | cons c rest =>
    simp only [splitCharList]
    rcases h : splitCharList sep rest with _ | ⟨hd, tl⟩
    · simp
    · by_cases hc : c = sep <;> simp [hc]

/-- `";".join(parts)` (also used for the literal `x ++ ";" ++ y` joins). -/
def joinSemis : List String → String
  | [] => ""
  | [x] => x
  | x :: y :: t => x ++ ";" ++ joinSemis (y :: t)

/-- `cur.split(";")` keeping only non-empty parts, as in
`[p for p in cur.split(";") if p]` and `filter(None, s.split(";"))`. -/
def splitSemiParts (s : String) : List String :=
  ((splitCharList ';' s.data).map String.mk).filter (fun x => x ≠ "")

/-- Python `str.strip()`: drop whitespace from both ends. -/
def stripWs (s : String) : String :=
  String.mk (((s.data.dropWhile Char.isWhitespace).reverse.dropWhile
    Char.isWhitespace).reverse)

/-- Python `str.lower()` (ASCII range, which is all the source feeds it). -/
def lowerStr (s : String) : String :=
  String.mk (s.data.map Char.toLower)

/-- Hex digit value, as `imagehash.hex_to_hash` reads hash strings. -/
def hexVal (c : Char) : Nat :=
  if '0' ≤ c ∧ c ≤ '9' then c.toNat - '0'.toNat
  else if 'a' ≤ c ∧ c ≤ 'f' then c.toNat - 'a'.toNat + 10
  else if 'A' ≤ c ∧ c ≤ 'F' then c.toNat - 'A'.toNat + 10
  else 0

/-- Number of set bits in a nibble (0..15). -/
def bitsOfNibble (n : Nat) : Nat :=
  n % 2 + n / 2 % 2 + n / 4 % 2 + n / 8 % 2

/-- Positional per-nibble Hamming distances of two hex strings. -/
def nibbleDists : List Char → List Char → List Nat
  | a :: as, b :: bs => bitsOfNibble (hexVal a ^^^ hexVal b) :: nibbleDists as bs
  | _, _ => []

/-- `_phash_dist`: `imagehash.hex_to_hash(a) - imagehash.hex_to_hash(b)`,
the number of differing bits between the two hex-encoded hashes
(the hashes the ledger stores all have the same length). -/
def phashDist (a b : String) : Nat :=
  (nibbleDists a.data b.data).sum

theorem nibbleDists_comm (as bs : List Char) :
    nibbleDists as bs = nibbleDists bs as := by
  induction as generalizing bs with
  | nil => cases bs <;> simp [nibbleDists]
  | cons a as ih =>
    cases bs with
    | nil => simp [nibbleDists]
    | cons b bs =>
      simp only [nibbleDists, ih]
      rw [Nat.xor_comm]

theorem phashDist_comm (a b : String) : phashDist a b = phashDist b a := by
  unfold phashDist
  rw [nibbleDists_comm]

/-- Is `pat` a contiguous subsequence of the second list (`pat in s`)? -/
def hasSubList (pat : List Char) : List Char → Bool
  | [] => pat.isEmpty
  | c :: rest => pat.isPrefixOf (c :: rest) || hasSubList pat rest

/-- Characters `urllib.parse` removes from URLs before parsing. -/
def urlKeepChar (c : Char) : Bool :=
  c != '\t' && c != '\r' && c != '\n'

/-- Valid RFC scheme characters, per `urllib.parse.scheme_chars`. -/
def isSchemeChar (c : Char) : Bool :=
  c.isAlphanum || c == '+' || c == '-' || c == '.'

/-- Strip a leading `scheme:` as `urlsplit` does: only when the colon is not
first, the first character is an (ASCII) letter, and all characters before
the colon are scheme characters. -/
def stripSchemeChars (cs : List Char) : List Char :=
  match cs.takeWhile (fun c => c != ':') with
  | [] => cs
  | c :: rest =>
    if (c :: rest).length < cs.length && c.isAlpha && (c :: rest).all isSchemeChar
    then cs.drop ((c :: rest).length + 1)
    else cs

/-- `urlparse(url).netloc`, modelled from `urllib.parse.urlsplit`: remove
tab/CR/LF, strip a scheme prefix, and if the remainder starts with `//` take
everything up to the next `/`, `?` or `#`; `none` models the `ValueError`
raised on unbalanced IPv6 brackets. The netloc keeps userinfo and `:port`. -/
def netlocOf (url : String) : Option String :=
  let cs := stripSchemeChars (url.data.filter urlKeepChar)
  match cs with
  | '/' :: '/' :: rest =>
    let nl := rest.takeWhile (fun c => c != '/' && c != '?' && c != '#')
    if (nl.contains '[') != (nl.contains ']') then none else some (String.mk nl)
  | _ => some ""

/-- `_host_from_url`: `urlparse(url).netloc.lower()`, `""` for empty input
or when parsing raises. -/
def hostFromUrl (url : String) : String :=
  if url = "" then ""
  else
    match netlocOf url with
    | none => ""
    | some nl => lowerStr nl

/-- `_host_from_hint`: strip and lower-case the hint; if it looks like a URL
(`://` somewhere or a `//` prefix) parse out the netloc (returning it even
when empty, falling back to the whole hint only if parsing raises);
otherwise the trimmed lower-cased text itself is the host. -/
def hostFromHint (hint : String) : String :=
  if hint = "" then ""
  else
    let s := lowerStr (stripWs hint)
    if s = "" then ""
    else
      if hasSubList "://".data s.data || "//".data.isPrefixOf s.data then
        match netlocOf (if hasSubList "://".data s.data then s else "http:" ++ s) with
        | some h => lowerStr h
        | none => s
      else s

/-- `_etld1_from_host` with `tldextract` unavailable (the import is wrapped
in `try/except`; the spec documents the fallback): the last two dot-separated
labels, or the host itself when it has a single label. -/
def etld1FromHost (host : String) : String :=
  if host = "" then ""
  else
    let parts := (splitCharList '.' host.data).map String.mk
    if parts.length ≥ 2 then
      match parts.drop (parts.length - 2) with
      | [a, b] => a ++ "." ++ b
      | _ => host
    else host

/-- The fixed `AD_HOST_SKIP` denylist. -/
def AD_HOST_SKIP : List String :=
  ["boost.mn", "edge.boost.mn", "exchange.boost.mn",
   "doubleclick.net", "googlesyndication.com", "adservice.google.com"]

/-- `_add_unique`: append `value` to the `;`-joined collection unless empty
or already present (the collection is re-joined from its non-empty parts). -/
def addUniqueStr (cur value : String) : String :=
  if value = "" then cur
  else
    let parts := splitSemiParts cur
    joinSemis (if value ∈ parts then parts else parts ++ [value])

/-- `_public_url_from_rel` with the `PUBLIC_BASE_URL` value passed in:
empty unless both base and relative path are non-empty; the base gains a
trailing `/` if missing and backslashes become forward slashes. -/
def publicUrlFromRel (baseRaw rel : String) : String :=
  let base := stripWs baseRaw
  if base = "" ∨ rel = "" then ""
  else
    (if base.data.getLast? = some '/' then base else base ++ "/") ++
      String.mk (rel.data.map (fun ch => if ch = '\\' then '/' else ch))

/-- Python's string `<`: code-point-wise lexicographic comparison. -/
def strLtChars : List Char → List Char → Bool
  | [], [] => false
  | [], _ :: _ => true
  | _ :: _, [] => false
  | a :: as, b :: bs => if a < b then true else if b < a then false else strLtChars as bs

/-- Python's string `<=` (`a <= b` iff `not (b < a)` for the total
lexicographic order); written char-wise so that proofs and witnesses can
evaluate it. -/
def strLeB (a b : String) : Bool := !(strLtChars b.data a.data)

/-- Python `min` on two strings. -/
def minStr (a b : String) : String := if strLeB a b then a else b

/-- Python `max` on two strings. -/
def maxStr (a b : String) : String := if strLeB b a then a else b

/-- `strLeB` as a relation, the order `sorted(...)` sorts by. -/
def strLeR (a b : String) : Prop := strLeB a b = true

instance decStrLeR : DecidableRel strLeR := fun a b => instDecidableEqBool _ _

theorem strLtChars_asymm (as bs : List Char) (h : strLtChars as bs = true) :
    strLtChars bs as = false := by
  induction as generalizing bs with
  | nil =>
    cases bs with
    | nil => simp [strLtChars] at h
    | cons b t => simp [strLtChars]
  | cons a as ih =>
    cases bs with
    | nil => simp [strLtChars] at h
    | cons b t =>
      by_cases hab : a < b
      · have hba : ¬ b < a := fun hc => absurd (hab.trans hc) (lt_irrefl a)
        simp [strLtChars, hab, hba]
      · by_cases hba : b < a
        · simp [strLtChars, hab, hba] at h
        · simp only [strLtChars, if_neg hab, if_neg hba] at h
          simp [strLtChars, hab, hba, ih t h]

theorem strLtChars_total (as bs : List Char)
    (h1 : strLtChars as bs = false) (h2 : strLtChars bs as = false) : as = bs := by
  induction as generalizing bs with
  | nil =>
    cases bs with
    | nil => rfl
    | cons b t => simp [strLtChars] at h1
  | cons a as ih =>
    cases bs with
    | nil => simp [strLtChars] at h2
    | cons b t =>
      by_cases hab : a < b
      · simp [strLtChars, hab] at h1
      · by_cases hba : b < a
        · simp [strLtChars, hab, hba] at h2
        · have hae : a = b := le_antisymm (not_lt.mp hba) (not_lt.mp hab)
          simp only [strLtChars, if_neg hab, if_neg hba] at h1
          simp only [strLtChars, if_neg hba, if_neg hab] at h2
          rw [hae, ih t h1 h2]

theorem strLtChars_trans (as bs cs : List Char)
    (h1 : strLtChars as bs = true) (h2 : strLtChars bs cs = true) :
    strLtChars as cs = true := by
  induction as generalizing bs cs with
  | nil =>
    cases cs with
    | nil =>
      cases bs with
      | nil => simp [strLtChars] at h1
      | cons b t => simp [strLtChars] at h2
    | cons c t => simp [strLtChars]
  | cons a as ih =>
    cases bs with
    | nil => simp [strLtChars] at h1
    | cons b tb =>
      cases cs with
      | nil => simp [strLtChars] at h2
      | cons c tc =>
        by_cases hab : a < b <;> by_cases hbc : b < c
        · have hac : a < c := hab.trans hbc
          simp [strLtChars, hac]
        · by_cases hcb : c < b
          · simp [strLtChars, hbc, hcb] at h2
          · have hbe : b = c := le_antisymm (not_lt.mp hcb) (not_lt.mp hbc)
            have hac : a < c := by rw [← hbe]; exact hab
            simp [strLtChars, hac]
        · by_cases hba : b < a
          · simp [strLtChars, hab, hba] at h1
          · have hae : a = b := le_antisymm (not_lt.mp hba) (not_lt.mp hab)
            have hac : a < c := by rw [hae]; exact hbc
            simp [strLtChars, hac]
        · by_cases hba : b < a
          · simp [strLtChars, hab, hba] at h1
          · by_cases hcb : c < b
            · simp [strLtChars, hbc, hcb] at h2
            · have hae : a = b := le_antisymm (not_lt.mp hba) (not_lt.mp hab)
              have hbe : b = c := le_antisymm (not_lt.mp hcb) (not_lt.mp hbc)
              have hac : ¬ a < c := by rw [hae, hbe]; exact lt_irrefl c
              have hca : ¬ c < a := by rw [hae, hbe]; exact lt_irrefl c
              simp only [strLtChars, if_neg hab, if_neg hba] at h1
              simp only [strLtChars, if_neg hbc, if_neg hcb] at h2
              simp only [strLtChars, if_neg hac, if_neg hca]
              exact ih tb tc h1 h2

instance instIsTotalStrLeR : IsTotal String strLeR := by
  constructor
  intro a b
  by_cases h : strLtChars b.data a.data = true
  · right
    unfold strLeR strLeB
    rw [strLtChars_asymm _ _ h]
    rfl
  · left
    unfold strLeR strLeB
    rw [Bool.not_eq_true] at h
    rw [h]
    rfl

instance instIsTransStrLeR : IsTrans String strLeR := by
  constructor
  intro a b c h1 h2
  unfold strLeR strLeB at h1 h2 ⊢
  rw [Bool.not_eq_true'] at h1 h2 ⊢
  rcases Bool.eq_false_or_eq_true (strLtChars c.data a.data) with hca | hca
  · exfalso
    rcases Bool.eq_false_or_eq_true (strLtChars a.data b.data) with hab | hab
    · have hcb : strLtChars c.data b.data = true := strLtChars_trans _ _ _ hca hab
      rw [hcb] at h2
      simp at h2
    · have hae : a.data = b.data := strLtChars_total _ _ hab h1
      rw [hae] at hca
      rw [hca] at h2
      simp at h2
  · exact hca

/-- Python `sorted(set(l))` for string lists: the distinct elements in
code-point lexicographic order. -/
def dedupSortStr (l : List String) : List String :=
  (l.dedup).insertionSort strLeR

/-! ## Data model -/

/-- One CSV row of the ledger: the fields of `LEDGER_FIELDS`. -/
structure Row where
  banner_id : String
  site : String
  first_seen_date : String
  last_seen_date : String
  days_seen : String
  seen_dates : String
  example_path : String
  example_rel : String
  example_url : String
  md5 : String
  phash : String
  /-- the source's `matches` column (`matches` is reserved in Lean) -/
  matchesField : String
  advertiser_host : String
  advertiser_domain : String
  source_host : String
  iframe_host : String
  page_domain : String
  advertiser_hosts_all : String
  advertiser_domains_all : String
  deriving DecidableEq, Repr

/-- The per-observation context handed to `observe_image` (all the optional
string arguments; `""` models an absent value). -/
structure Ctx where
  site : String
  example_path : String
  example_rel : String
  seen_date : String
  click_url : String
  asset_url : String
  page_url : String
  iframe_src : String
  advertiser_hint : String
  deriving DecidableEq, Repr

/-- Process-wide configuration: `BANNER_LEDGER_PHASH_DIST` (default 6),
`PUBLIC_BASE_URL`, and the calendar date `_today()` returns. -/
structure Env where
  maxDist : Nat
  publicBaseUrl : String
  today : String
  deriving DecidableEq, Repr

/-- In-memory `BannerLedger` state: `rows`, `_by_md5`, `_by_phash`. -/
structure Ledger where
  rows : List (String × Row)
  byMd5 : List (String × String)
  byPhash : List (String × String)
  deriving DecidableEq, Repr

/-- A freshly constructed ledger with no history. -/
def emptyLedger : Ledger := ⟨[], [], []⟩

/-! ## Operations -/

/-- `_choose_advertiser`: hint first, then click URL; a candidate is accepted
when its registrable domain is non-empty, not denylisted and different from
the page's own registrable domain. -/
def chooseAdvertiser (advHint clickUrl pageUrl : String) : String × String :=
  let pageDom := if pageUrl = "" then "" else etld1FromHost (hostFromUrl pageUrl)
  let hintHost := hostFromHint advHint
  let fromHint : Option (String × String) :=
    if hintHost ≠ "" then
      let e := etld1FromHost hintHost
      if e ≠ "" ∧ e ∉ AD_HOST_SKIP ∧ e ≠ pageDom then some (hintHost, e) else none
    else none
  match fromHint with
  | some r => r
  | none =>
    let h := hostFromUrl clickUrl
    if h ≠ "" then
      let e := etld1FromHost h
      if e ≠ "" ∧ e ∉ AD_HOST_SKIP ∧ e ≠ pageDom then (h, e) else ("", "")
    else ("", "")

/-- The linear scan inside `_find_by_phash_near`: running
`(best_id, best_dist)` pair, updated on strict improvement, skipping rows
with an empty stored phash. -/
def scanNear (ph : String) : List (String × Row) → Option String × Nat → Option String × Nat
  | [], acc => acc
  | (bid, row) :: t, acc =>
    if row.phash = "" then scanNear ph t acc
    else if phashDist ph row.phash < acc.2 then scanNear ph t (some bid, phashDist ph row.phash)
    else scanNear ph t acc

/-- `_find_by_phash_near`: an exactly-indexed hash returns its owner
immediately (whatever that id is); otherwise the linear scan, whose result
is returned only when an id was found (Python truthiness: a `""` best id is
treated as none) and the best distance is within the threshold. -/
def findByPhashNear (maxDist : Nat) (L : Ledger) (ph : String) : Option String :=
  match lookupA L.byPhash ph with
  | some b => some b
  | none =>
    match scanNear ph L.rows (none, 10 ^ 9) with
    | (some b, d) => if b ≠ "" ∧ d ≤ maxDist then some b else none
    | (none, _) => none

/-- Lines 198–205 of `observe_image`: pick `(bid, match_type)`.  A near id
is subject to Python truthiness (`if near_id:`), so a `""` id from a stale
index entry falls through to the `new` branch. -/
def classifyImpl (maxDist : Nat) (L : Ledger) (md5s ph : String) : String × String :=
  match lookupA L.byMd5 md5s with
  | some b => (b, "exact")
  | none =>
    match findByPhashNear maxDist L ph with
    | some nb => if nb ≠ "" then (nb, "near") else ("bn_" ++ md5s, "new")
    | none => ("bn_" ++ md5s, "new")

/-- The record seeded for a `new` observation (lines 206–215). -/
def freshRow (bid site sd examplePath exampleRel md5s ph : String) : Row :=
  { banner_id := bid, site := site
    first_seen_date := sd, last_seen_date := sd
    days_seen := "1", seen_dates := sd
    example_path := examplePath, example_rel := exampleRel, example_url := ""
    md5 := md5s, phash := ph, matchesField := "new"
    advertiser_host := "", advertiser_domain := ""
    source_host := "", iframe_host := "", page_domain := ""
    advertiser_hosts_all := "", advertiser_domains_all := "" }

/-- Lines 217–257 of `observe_image`: merge the observation's context into
the selected (or freshly created) record. -/
def mergeRow (env : Env) (c : Ctx) (sd md5s ph mtype : String) (row : Row) : Row :=
  let fsd := if row.first_seen_date = "" then sd else row.first_seen_date
  let lsd := if row.last_seen_date = "" then sd else row.last_seen_date
  let ds := dedupSortStr (sd :: splitSemiParts row.seen_dates)
  let advPair := chooseAdvertiser c.advertiser_hint c.click_url c.page_url
  let srcHost := hostFromUrl c.asset_url
  let ifHost := if c.iframe_src ≠ "" then hostFromUrl c.iframe_src else ""
  let pgHost := hostFromUrl c.page_url
  let pgDom := if pgHost ≠ "" then etld1FromHost pgHost else ""
  { banner_id := row.banner_id
    site := if row.site = "" then c.site else row.site
    first_seen_date := minStr fsd sd
    last_seen_date := maxStr lsd sd
    days_seen := toString ds.length
    seen_dates := joinSemis ds
    example_path := if row.example_path = "" then c.example_path else row.example_path
    example_rel := if c.example_rel ≠ "" then c.example_rel else row.example_rel
    example_url := if c.example_rel ≠ "" then publicUrlFromRel env.publicBaseUrl c.example_rel
                   else row.example_url
    md5 := md5s
    phash := ph
    matchesField := mtype
    advertiser_host := if advPair.1 ≠ "" then advPair.1 else row.advertiser_host
    advertiser_domain := if advPair.2 ≠ "" then advPair.2 else row.advertiser_domain
    source_host := if srcHost ≠ "" ∧ row.source_host = "" then srcHost else row.source_host
    iframe_host := if ifHost ≠ "" ∧ row.iframe_host = "" then ifHost else row.iframe_host
    page_domain := if pgDom ≠ "" ∧ row.page_domain = "" then pgDom else row.page_domain
    advertiser_hosts_all := addUniqueStr row.advertiser_hosts_all advPair.1
    advertiser_domains_all := addUniqueStr row.advertiser_domains_all advPair.2 }

/-- `observe_image`, over the already-computed fingerprints `(md5s, ph)`
of the incoming bytes (the hashes themselves are computed by `hashlib` and
`imagehash`).  Returns the updated ledger and `(banner_id, match_type)`.
`none` models the `KeyError` Python would raise when an index names a
non-existent record (impossible for ledgers the class itself built, and
excluded by the well-formedness hypotheses of the theorems below); no state
is mutated before that point in the source. -/
def observeImage (env : Env) (L : Ledger) (md5s ph : String) (c : Ctx) :
    Option (Ledger × String × String) :=
  let sd := if c.seen_date = "" then env.today else c.seen_date
  let bm := classifyImpl env.maxDist L md5s ph
  let row0? := if bm.2 = "new"
    then some (freshRow bm.1 c.site sd c.example_path c.example_rel md5s ph)
    else lookupA L.rows bm.1
  row0?.map (fun row0 =>
    let row := mergeRow env c sd md5s ph bm.2 row0
    (⟨insertA L.rows bm.1 row, insertA L.byMd5 md5s bm.1, insertA L.byPhash ph bm.1⟩,
      bm.1, bm.2))

/-- One call to `observe_image` on actual image bytes `b`: `md5f` models the
total `_md5_short`, `phf` models `_phash_hex`, whose `none` is the decode
error `PIL`/`imagehash` raise on corrupt bytes — the exception propagates
(`Except.error`) and the ledger object is left exactly as it was, since the
source computes both fingerprints before touching any state. -/
def observeStep {β : Type} (env : Env) (md5f : β → String) (phf : β → Option String)
    (st : Ledger) (b : β) (c : Ctx) : Ledger × Except Unit (String × String) :=
  match phf b with
  | none => (st, Except.error ())
  | some ph =>
    match observeImage env st (md5f b) ph c with
    | some (L2, bid, t) => (L2, Except.ok (bid, t))
    | none => (st, Except.error ())

/-- The ledger reached from an empty store by a sequence of observations. -/
def runTrace {β : Type} (env : Env) (md5f : β → String) (phf : β → Option String)
    (obs : List (β × Ctx)) : Ledger :=
  obs.foldl (fun L o => (observeStep env md5f phf L o.1 o.2).1) emptyLedger

/-- One row of `_load`: rows without a `banner_id` are skipped; the indexes
gain an entry only for a non-empty stored fingerprint. -/
def loadStep (L : Ledger) (r : Row) : Ledger :=
  if r.banner_id = "" then L
  else
    ⟨insertA L.rows r.banner_id r,
     if r.md5 ≠ "" then insertA L.byMd5 r.md5 r.banner_id else L.byMd5,
     if r.phash ≠ "" then insertA L.byPhash r.phash r.banner_id else L.byPhash⟩

/-- `_load` from an already-parsed table of rows. -/
def loadRows (rs : List Row) : Ledger :=
  rs.foldl loadStep emptyLedger

/-- `save`: the table written out is the record collection in insertion
order (every `Row` structurally carries all `LEDGER_FIELDS`, matching the
`setdefault` normalisation before write). -/
def saveRows (L : Ledger) : List Row :=
  L.rows.map Prod.snd

/-- `BannerLedger.__init__` + `_load`, with the durable store abstracted:
`none` is a missing file (`os.path.exists` false — start empty), and an
existing file either fails to decode (`Except.error`, e.g. invalid UTF-8,
which `_load` does not catch, so the constructor propagates it) or parses
into a list of rows. -/
def bannerLedgerInit (store : Option (Except Unit (List Row))) : Except Unit Ledger :=
  match store with
  | none => Except.ok emptyLedger
  | some (Except.error e) => Except.error e
  | some (Except.ok rs) => Except.ok (loadRows rs)

/-! ## Small facts about strings and the helpers -/

theorem strData_append (s t : String) : (s ++ t).data = s.data ++ t.data := rfl

theorem strMk_data (s : String) : String.mk s.data = s := by
  cases s
  rfl

theorem str_ne_empty_of_data_ne (s : String) (h : s.data ≠ []) : s ≠ "" := by
  intro he
  rw [he] at h
  exact h rfl

theorem bn_prefix_ne_empty (s : String) : ("bn_" ++ s) ≠ "" := by
  apply str_ne_empty_of_data_ne
  rw [strData_append]
  simp

theorem etld1FromHost_empty : etld1FromHost "" = "" := rfl

theorem etld1FromHost_ne_empty (host : String) (h : host ≠ "") :
    etld1FromHost host ≠ "" := by
  unfold etld1FromHost
  rw [if_neg h]
  set parts := (splitCharList '.' host.data).map String.mk with hparts
  by_cases hlen : parts.length ≥ 2
  · rw [if_pos hlen]
    have hdlen : (parts.drop (parts.length - 2)).length = 2 := by
      rw [List.length_drop]
      omega
    rcases hd : parts.drop (parts.length - 2) with _ | ⟨a, _ | ⟨b, _ | _⟩⟩ <;>
      rw [hd] at hdlen <;> simp at hdlen
    apply str_ne_empty_of_data_ne
    rw [strData_append, strData_append]
    simp
  · rw [if_neg hlen]
    exact h

/-! ## Specification-side definitions

These restate, in the words of the specification, the properties the claims
compare against the implementation; they are deliberately written from the
spec text, not from the source. -/

/-- The advertiser-selection rule as the spec words it: take the hint's
`(host, registrable domain)` when the domain is non-empty, not denylisted
and different from the page URL's registrable domain; else the click URL's
under the same rule; else empty/empty. -/
def chooseAdvertiserSpec (advHint clickUrl pageUrl : String) : String × String :=
  let pageDom := etld1FromHost (hostFromUrl pageUrl)
  let hintHost := hostFromHint advHint
  let hintDom := etld1FromHost hintHost
  if hintDom ≠ "" ∧ hintDom ∉ AD_HOST_SKIP ∧ hintDom ≠ pageDom then (hintHost, hintDom)
  else
    let clickHost := hostFromUrl clickUrl
    let clickDom := etld1FromHost clickHost
    if clickDom ≠ "" ∧ clickDom ∉ AD_HOST_SKIP ∧ clickDom ≠ pageDom then
      (clickHost, clickDom)
    else ("", "")

/-- The classification rule as the claim words it: exact-digest index hit
first; otherwise an exact similarity-hash index hit, or a linear scan
selecting the first record whose non-empty similarity hash attains the
minimum distance, accepted when that minimum is within the threshold;
otherwise a new record with an id derived from the exact digest. -/
def classifySpec (maxDist : Nat) (L : Ledger) (md5s ph : String) : String × String :=
  match lookupA L.byMd5 md5s with
  | some b => (b, "exact")
  | none =>
    match lookupA L.byPhash ph with
    | some b => (b, "near")
    | none =>
      if (L.rows.filter fun p => p.2.phash ≠ "").any
          (fun p => phashDist ph p.2.phash ≤ maxDist) then
        match (L.rows.filter fun p => p.2.phash ≠ "").find? (fun p =>
            (L.rows.filter fun p => p.2.phash ≠ "").all
              (fun q => phashDist ph p.2.phash ≤ phashDist ph q.2.phash)) with
        | some p => (p.1, "near")
        | none => ("bn_" ++ md5s, "new")
      else ("bn_" ++ md5s, "new")

/-- The exact-digest index rebuilt from a saved table, as the reload
produces it: one entry per kept row with a non-empty digest. -/
def mdIndexOfRows (rs : List Row) : List (String × String) :=
  rs.foldl (fun a r => if r.banner_id ≠ "" ∧ r.md5 ≠ "" then insertA a r.md5 r.banner_id else a) []

/-- The similarity-hash index rebuilt from a saved table. -/
def phIndexOfRows (rs : List Row) : List (String × String) :=
  rs.foldl (fun a r => if r.banner_id ≠ "" ∧ r.phash ≠ "" then insertA a r.phash r.banner_id else a) []

/-- Both lookup indexes map every record's current fingerprints back to the
record's own id (the invariant of claim C2). -/
def IndexPointsBack (L : Ledger) : Prop :=
  ∀ p ∈ L.rows,
    lookupA L.byMd5 p.2.md5 = some p.1 ∧ lookupA L.byPhash p.2.phash = some p.1

instance decIndexPointsBack (L : Ledger) : Decidable (IndexPointsBack L) :=
  List.decidableBAll _ L.rows

/-- The date bookkeeping a record must satisfy after an observation:
`days_seen` counts the distinct dates, and `seen_dates` is stored as the
deduplicated, sorted, `;`-joined list of them. -/
def RowDatesOk (r : Row) : Prop :=
  r.days_seen = toString (splitSemiParts r.seen_dates).length ∧
  (splitSemiParts r.seen_dates).Nodup ∧
  (splitSemiParts r.seen_dates).Sorted strLeR ∧
  r.seen_dates = joinSemis (splitSemiParts r.seen_dates)

/-- `RowDatesOk` for the record stored under `bid`, trivially true when no
such record exists. -/
def DatesOkAt (L : Ledger) (bid : String) : Prop :=
  (lookupA L.rows bid).elim True RowDatesOk

/-! ## Concrete inputs shared by the witnesses -/

/-- Default configuration: threshold 6, no public base URL. -/
def envW : Env := ⟨6, "", "2024-01-01"⟩

/-- A minimal observation context with an explicit date. -/
def ctxW : Ctx := ⟨"s1", "img/p1.png", "", "2024-01-01", "", "", "", "", ""⟩

/-- A stored row carrying no banner id (as `_load` meets when a CSV row has
an empty identifier column). -/
def blankRow : Row := ⟨"", "", "", "", "", "", "", "", "", "", "", "", "", "", "", "", "", "", ""⟩

/-! ## C7: decode failure aborts the observation and leaves state intact -/

/-- C7: when the incoming bytes cannot be decoded as a raster image
(`_phash_hex` raises, modelled by `phf b = none`), `observe_image` raises a
decoding error and the ledger — records and both indexes — is exactly what
it was before the call. -/
theorem c7_decode_failure_no_mutation {β : Type} (env : Env) (md5f : β → String)
    (phf : β → Option String) (L : Ledger) (b : β) (c : Ctx)
    (h : phf b = none) :
    observeStep env md5f phf L b c = (L, Except.error ()) ∧
    (observeStep env md5f phf L b c).1.rows = L.rows ∧
    (observeStep env md5f phf L b c).1.byMd5 = L.byMd5 ∧
    (observeStep env md5f phf L b c).1.byPhash = L.byPhash := by
  simp [observeStep, h]

/-- Witness for C7 at a concrete undecodable observation. -/
theorem c7_decode_failure_no_mutation_witness :
    observeStep envW (fun _ : Unit => "aa") (fun _ => none) emptyLedger () ctxW =
      (emptyLedger, Except.error ()) :=
  (c7_decode_failure_no_mutation envW (fun _ => "aa") (fun _ => none)
    emptyLedger () ctxW rfl).1

/-! ## C8: constructing on a missing or corrupt store -/

/-- C8 counterexample: the claim says construction never raises even on a
corrupt durable file, but `_load` wraps nothing in `try`: a file that exists
and fails to decode (e.g. invalid UTF-8 in the ledger CSV) propagates the
error out of the constructor. -/
theorem c8_corrupt_store_raises :
    bannerLedgerInit (some (Except.error ())) = Except.error () := rfl

/-- C8 as amended: a missing store file yields an empty ledger without
raising, and a store that decodes but contains no usable rows (every row
lacking a `banner_id`) also loads as empty; only an undecodable existing
file propagates its error. -/
theorem c8_missing_store_empty :
    bannerLedgerInit none = Except.ok emptyLedger ∧
    ∀ rs : List Row, (∀ r ∈ rs, r.banner_id = "") →
      bannerLedgerInit (some (Except.ok rs)) = Except.ok emptyLedger := by
  refine ⟨rfl, ?_⟩
  intro rs hrs
  have : ∀ rs' : List Row, ∀ L : Ledger, (∀ r ∈ rs', r.banner_id = "") →
      rs'.foldl loadStep L = L := by
    intro rs'
    induction rs' with
    | nil => intro L _; rfl
    | cons r t ih =>
      intro L hall
      have hr : r.banner_id = "" := hall r (List.mem_cons_self _ _)
      simp only [List.foldl_cons, loadStep, if_pos hr]
      exact ih L (fun x hx => hall x (List.mem_cons_of_mem _ hx))
  simp only [bannerLedgerInit, loadRows, this rs emptyLedger hrs]

/-- Witness for C8's amended claim at a concrete no-id row. -/
theorem c8_missing_store_empty_witness :
    bannerLedgerInit (some (Except.ok [blankRow])) = Except.ok emptyLedger :=
  c8_missing_store_empty.2 [blankRow] (by
    intro r hr
    rw [List.mem_singleton] at hr
    rw [hr]
    rfl)

/-! ## C9: host_of keeps the port -/

/-- C9 counterexample: the claim says any `:port` suffix is stripped, but
`_host_from_url` returns `urlparse(url).netloc.lower()` unchanged, and the
netloc retains the port. -/
theorem c9_port_not_stripped :
    hostFromUrl "https://example.com:8080/landing" = "example.com:8080" ∧
    hostFromUrl "https://example.com:8080/landing" ≠ "example.com" := by
  constructor
  · rfl
  · decide

theorem takeWhile_append_all {α : Type} (p : α → Bool) (a b : List α)
    (h : ∀ c ∈ a, p c = true) :
    (a ++ b).takeWhile p = a ++ b.takeWhile p := by
  induction a with
  | nil => simp
  | cons x t ih =>
    have hx : p x = true := h x (List.mem_cons_self _ _)
    simp only [List.cons_append, List.takeWhile_cons, hx, if_true]
    rw [ih (fun c hc => h c (List.mem_cons_of_mem _ hc))]

theorem stripScheme_https (cs : List Char) :
    stripSchemeChars ('h' :: 't' :: 't' :: 'p' :: 's' :: ':' :: cs) = cs := by
  have h5 : 5 < cs.length + 6 := by omega
  simp [stripSchemeChars, List.takeWhile, isSchemeChar, h5]

/-- C9 as amended: `host_of` returns the URL's network location lower-cased
*without* stripping any `:port` suffix (for any `https://HOST/...` URL whose
host part is free of delimiters and control characters and has balanced
brackets, the result is exactly the host part lower-cased, port and all);
it returns `""` on empty input and on a parse failure (unbalanced IPv6
bracket). -/
theorem c9_host_of_keeps_netloc (h rest : String)
    (hclean : ∀ ch ∈ h.data, ch ≠ '/' ∧ ch ≠ '?' ∧ ch ≠ '#' ∧
      ch ≠ '\t' ∧ ch ≠ '\r' ∧ ch ≠ '\n')
    (hbr : '[' ∈ h.data ↔ ']' ∈ h.data) :
    hostFromUrl ("https://" ++ h ++ "/" ++ rest) = lowerStr h ∧
    hostFromUrl "" = "" ∧
    hostFromUrl "http://[abc/x" = "" := by
  refine ⟨?_, rfl, by decide⟩
  have hne : ("https://" ++ h ++ "/" ++ rest) ≠ "" := by
    apply str_ne_empty_of_data_ne
    rw [strData_append]
    simp
  have hkeep : ∀ ch ∈ h.data, urlKeepChar ch = true := by
    intro ch hch
    obtain ⟨_, _, _, h4, h5, h6⟩ := hclean ch hch
    simp [urlKeepChar, bne_iff_ne, h4, h5, h6]
  have htake : ∀ ch ∈ h.data,
      (ch != '/' && ch != '?' && ch != '#') = true := by
    intro ch hch
    obtain ⟨h1, h2, h3, _, _, _⟩ := hclean ch hch
    simp [bne_iff_ne, h1, h2, h3]
  have hdata : ("https://" ++ h ++ "/" ++ rest).data =
      'h' :: 't' :: 't' :: 'p' :: 's' :: ':' :: '/' :: '/' ::
        ((h.data ++ ['/']) ++ rest.data) := by
    rw [strData_append, strData_append, strData_append]
    simp [List.append_assoc]
  have hfilter : (("https://" ++ h ++ "/" ++ rest).data.filter urlKeepChar) =
      'h' :: 't' :: 't' :: 'p' :: 's' :: ':' :: '/' :: '/' ::
        (h.data ++ ('/' :: rest.data.filter urlKeepChar)) := by
    rw [hdata]
    simp only [List.filter_cons, List.filter_append]
    rw [List.filter_eq_self.mpr hkeep]
    simp [List.append_assoc, urlKeepChar]
  have hnl : netlocOf ("https://" ++ h ++ "/" ++ rest) = some (String.mk h.data) := by
    unfold netlocOf
    rw [hfilter, stripScheme_https]
    simp only
    rw [takeWhile_append_all _ h.data _ htake]
    simp only [List.takeWhile_cons]
    norm_num
    intro hc
    exact absurd hbr hc
  unfold hostFromUrl
  rw [if_neg hne, hnl, strMk_data]

/-- Witness for C9's amended claim at a concrete URL carrying a port. -/
theorem c9_host_of_keeps_netloc_witness :
    hostFromUrl ("https://" ++ "shop.Example.mn:8080" ++ "/" ++ "x") =
      lowerStr "shop.Example.mn:8080" :=
  (c9_host_of_keeps_netloc "shop.Example.mn:8080" "x" (by decide) (by decide)).1

/-! ## C10: the denylist is checked against the registrable domain -/

/-- C10: `_choose_advertiser` tests denylist membership on the candidate's
registrable domain, never on its full host: any click URL whose host is
itself a denylist entry is still accepted whenever the host's registrable
domain is not denylisted and differs from the page's registrable domain
(the hint being absent). -/
theorem c10_denylist_on_domain_only (clickUrl pageUrl : String)
    (hh : hostFromUrl clickUrl ≠ "")
    (hhost_listed : hostFromUrl clickUrl ∈ AD_HOST_SKIP)
    (hdom_free : etld1FromHost (hostFromUrl clickUrl) ∉ AD_HOST_SKIP)
    (hpage : etld1FromHost (hostFromUrl clickUrl) ≠
      (if pageUrl = "" then "" else etld1FromHost (hostFromUrl pageUrl))) :
    chooseAdvertiser "" clickUrl pageUrl =
      (hostFromUrl clickUrl, etld1FromHost (hostFromUrl clickUrl)) := by
  have hdom_ne : etld1FromHost (hostFromUrl clickUrl) ≠ "" :=
    etld1FromHost_ne_empty _ hh
  unfold chooseAdvertiser
  have hhint : hostFromHint "" = "" := rfl
  simp only [hhint, ne_eq, not_true_eq_false, if_false, reduceIte]
  rw [if_pos hh]
  rw [if_pos ⟨hdom_ne, hdom_free, hpage⟩]

/-- Witness for C10 at the denylist entry the claim singles out:
`adservice.google.com` is in `AD_HOST_SKIP`, its registrable domain
`google.com` is not, so the click URL is attributed. -/
theorem c10_denylist_on_domain_only_witness :
    chooseAdvertiser "" "https://adservice.google.com/click" "https://news.mn/" =
      ("adservice.google.com", "google.com") :=
  (c10_denylist_on_domain_only "https://adservice.google.com/click"
    "https://news.mn/" (by decide) (by decide) (by decide) (by decide)).trans
    (by decide)

/-! ## C5: advertiser-selection priority -/

/-- C5: `_choose_advertiser` implements exactly the spec's rule — the
hint's `(host, registrable domain)` when the hint's domain is non-empty,
not denylisted and different from the page's registrable domain; else the
click URL's under the same rule; else `("", "")`.  In particular the hint
wins whenever both candidates are acceptable. -/
theorem c5_choose_advertiser_priority (hint click page : String) :
    chooseAdvertiser hint click page = chooseAdvertiserSpec hint click page := by
  unfold chooseAdvertiser chooseAdvertiserSpec
  have hpd : (if page = "" then "" else etld1FromHost (hostFromUrl page)) =
      etld1FromHost (hostFromUrl page) := by
    by_cases hp : page = ""
    · rw [if_pos hp, hp]
      rfl
    · rw [if_neg hp]
  rw [hpd]
  by_cases hh : hostFromHint hint = ""
  · by_cases hc : hostFromUrl click = ""
    · simp [hh, hc, etld1FromHost_empty]
    · simp [hh, hc, etld1FromHost_empty]
  · by_cases hacc : etld1FromHost (hostFromHint hint) ≠ "" ∧
        etld1FromHost (hostFromHint hint) ∉ AD_HOST_SKIP ∧
        etld1FromHost (hostFromHint hint) ≠ etld1FromHost (hostFromUrl page)
    · simp only [ne_eq] at hacc
      simp [hh, hacc]
    · simp only [ne_eq] at hacc
      by_cases hc : hostFromUrl click = ""
      · simp [hh, hacc, hc, etld1FromHost_empty]
      · simp [hh, hacc, hc]

/-! ## C4: observing the same bytes twice -/

/-- `observeImage` with its local bindings unfolded (definitional). -/
theorem observeImage_eq (env : Env) (L : Ledger) (md5s ph : String) (c : Ctx) :
    observeImage env L md5s ph c =
      (if (classifyImpl env.maxDist L md5s ph).2 = "new"
        then some (freshRow (classifyImpl env.maxDist L md5s ph).1 c.site
          (if c.seen_date = "" then env.today else c.seen_date)
          c.example_path c.example_rel md5s ph)
        else lookupA L.rows (classifyImpl env.maxDist L md5s ph).1).map
        (fun row0 =>
          (⟨insertA L.rows (classifyImpl env.maxDist L md5s ph).1
              (mergeRow env c (if c.seen_date = "" then env.today else c.seen_date)
                md5s ph (classifyImpl env.maxDist L md5s ph).2 row0),
            insertA L.byMd5 md5s (classifyImpl env.maxDist L md5s ph).1,
            insertA L.byPhash ph (classifyImpl env.maxDist L md5s ph).1⟩,
            (classifyImpl env.maxDist L md5s ph).1,
            (classifyImpl env.maxDist L md5s ph).2)) := rfl

/-- C4: a successful `observe_image` indexes the image's exact digest at the
returned id, so calling it again with the same bytes (same fingerprints)
and the same context returns the same `banner_id`, with the second call's
`match_type` equal to `"exact"`. -/
theorem c4_second_call_exact (env : Env) (L : Ledger) (md5s ph : String) (c : Ctx)
    (L1 : Ledger) (bid1 t1 : String)
    (h : observeImage env L md5s ph c = some (L1, bid1, t1)) :
    (observeImage env L1 md5s ph c).map (fun y => (y.2.1, y.2.2)) =
      some (bid1, "exact") := by
  rw [observeImage_eq] at h
  rcases hrow : (if (classifyImpl env.maxDist L md5s ph).2 = "new"
      then some (freshRow (classifyImpl env.maxDist L md5s ph).1 c.site
        (if c.seen_date = "" then env.today else c.seen_date)
        c.example_path c.example_rel md5s ph)
      else lookupA L.rows (classifyImpl env.maxDist L md5s ph).1) with _ | row0
  · rw [hrow] at h
    simp only [Option.map_none'] at h
    exact Option.noConfusion h
  · rw [hrow] at h
    simp only [Option.map_some'] at h
    injection h with h
    have hL1 : L1 = ⟨insertA L.rows (classifyImpl env.maxDist L md5s ph).1
        (mergeRow env c (if c.seen_date = "" then env.today else c.seen_date)
          md5s ph (classifyImpl env.maxDist L md5s ph).2 row0),
        insertA L.byMd5 md5s (classifyImpl env.maxDist L md5s ph).1,
        insertA L.byPhash ph (classifyImpl env.maxDist L md5s ph).1⟩ :=
      (congrArg Prod.fst h).symm
    have hbid : bid1 = (classifyImpl env.maxDist L md5s ph).1 :=
      (congrArg (fun y => y.2.1) h).symm
    have hmd : lookupA L1.byMd5 md5s = some bid1 := by
      rw [hL1, hbid]
      exact lookupA_insertA_self _ _ _
    have hclass : classifyImpl env.maxDist L1 md5s ph = (bid1, "exact") := by
      unfold classifyImpl
      rw [hmd]
    have hrows : lookupA L1.rows bid1 =
        some (mergeRow env c (if c.seen_date = "" then env.today else c.seen_date)
          md5s ph (classifyImpl env.maxDist L md5s ph).2 row0) := by
      rw [hL1, hbid]
      exact lookupA_insertA_self _ _ _
    rw [observeImage_eq, hclass]
    simp [hrows]

/-- The ledger after one concrete observation, for the C4 witness. -/
def ledgerAfterOne : Ledger :=
  ((observeImage envW emptyLedger "aa" "00" ctxW).map Prod.fst).getD emptyLedger

/-- Witness for C4: the first concrete observation is `new`, re-observing
the identical fingerprints yields the same id with `"exact"`. -/
theorem c4_second_call_exact_witness :
    (observeImage envW ledgerAfterOne "aa" "00" ctxW).map (fun y => (y.2.1, y.2.2)) =
      some ("bn_aa", "exact") :=
  c4_second_call_exact envW emptyLedger "aa" "00" ctxW ledgerAfterOne "bn_aa" "new"
    (by decide)

/-! ## C6: date bookkeeping -/

theorem mem_splitCharList_no_sep (sep : Char) (cs : List Char) :
    ∀ part ∈ splitCharList sep cs, sep ∉ part := by
  induction cs with
  | nil =>
    intro part hp
    simp [splitCharList] at hp
    simp [hp]
  | cons c rest ih =>
    intro part hp
    simp only [splitCharList] at hp
    rcases hrec : splitCharList sep rest with _ | ⟨h0, t0⟩
    · exact absurd hrec (splitCharList_ne_nil sep rest)
    · rw [hrec] at hp
      dsimp only at hp
      by_cases hc : c = sep
      · rw [if_pos hc] at hp
        rcases List.mem_cons.mp hp with hp | hp
        · simp [hp]
        · exact ih part (hrec ▸ hp)
      · rw [if_neg hc] at hp
        rcases List.mem_cons.mp hp with hp | hp
        · rw [hp]
          intro hmem
          rcases List.mem_cons.mp hmem with hmem | hmem
          · exact hc hmem.symm
          · exact ih h0 (hrec ▸ List.mem_cons_self _ _) hmem
        · exact ih part (hrec ▸ List.mem_cons_of_mem _ hp)

theorem splitCharList_no_sep (sep : Char) (cs : List Char) (h : sep ∉ cs) :
    splitCharList sep cs = [cs] := by
  induction cs with
  | nil => rfl
  | cons c rest ih =>
    have hc : c ≠ sep := fun he => h (he ▸ List.mem_cons_self _ _)
    have hrest : sep ∉ rest := fun hm => h (List.mem_cons_of_mem _ hm)
    simp only [splitCharList, ih hrest]
    rw [if_neg hc]

theorem splitCharList_append_sep (sep : Char) (a b : List Char) (h : sep ∉ a) :
    splitCharList sep (a ++ sep :: b) = a :: splitCharList sep b := by
  induction a with
  | nil =>
    simp only [List.nil_append, splitCharList]
    rcases hrec : splitCharList sep b with _ | ⟨h0, t0⟩
    · exact absurd hrec (splitCharList_ne_nil sep b)
    · simp
  | cons c rest ih =>
    have hc : c ≠ sep := fun he => h (he ▸ List.mem_cons_self _ _)
    have hrest : sep ∉ rest := fun hm => h (List.mem_cons_of_mem _ hm)
    have step : splitCharList sep ((c :: rest) ++ sep :: b) =
        match splitCharList sep (rest ++ sep :: b) with
        | [] => [[c]]
        | h0 :: t0 => if c = sep then [] :: h0 :: t0 else (c :: h0) :: t0 := rfl
    rw [step, ih hrest]
    simp [hc]

theorem splitSemiParts_joinSemis (ls : List String)
    (h : ∀ x ∈ ls, x ≠ "" ∧ ';' ∉ x.data) :
    splitSemiParts (joinSemis ls) = ls := by
  induction ls with
  | nil => rfl
  | cons x t ih =>
    cases t with
    | nil =>
      obtain ⟨hx, hxs⟩ := h x (List.mem_cons_self _ _)
      simp only [joinSemis, splitSemiParts]
      rw [splitCharList_no_sep ';' x.data hxs]
      simp [strMk_data, hx]
    | cons y t2 =>
      obtain ⟨hx, hxs⟩ := h x (List.mem_cons_self _ _)
      have hrest : ∀ z ∈ y :: t2, z ≠ "" ∧ ';' ∉ z.data :=
        fun z hz => h z (List.mem_cons_of_mem _ hz)
      simp only [joinSemis, splitSemiParts]
      rw [strData_append, strData_append]
      have hsd : (";" : String).data = [';'] := rfl
      rw [hsd, List.append_assoc]
      simp only [List.singleton_append]
      rw [splitCharList_append_sep ';' x.data _ hxs]
      simp only [List.map_cons, List.filter_cons, strMk_data]
      have hxt : (x ≠ "") = True := by simp [hx]
      simp only [ne_eq, hxt]
      have := ih hrest
      simp only [splitSemiParts] at this
      rw [this]
      simp

theorem splitSemiParts_props (s : String) :
    ∀ x ∈ splitSemiParts s, x ≠ "" ∧ ';' ∉ x.data := by
  intro x hx
  unfold splitSemiParts at hx
  obtain ⟨hmem, hpred⟩ := List.mem_filter.mp hx
  refine ⟨by simpa using hpred, ?_⟩
  obtain ⟨part, hpart, hmk⟩ := List.mem_map.mp hmem
  have : x.data = part := by rw [← hmk]
  rw [this]
  exact mem_splitCharList_no_sep ';' s.data part hpart

theorem mem_dedupSortStr (l : List String) (x : String) :
    x ∈ dedupSortStr l ↔ x ∈ l := by
  unfold dedupSortStr
  rw [(List.perm_insertionSort strLeR l.dedup).mem_iff]
  exact List.mem_dedup

theorem nodup_dedupSortStr (l : List String) : (dedupSortStr l).Nodup :=
  (List.perm_insertionSort strLeR l.dedup).symm.nodup l.nodup_dedup

theorem sorted_dedupSortStr (l : List String) : (dedupSortStr l).Sorted strLeR :=
  List.sorted_insertionSort strLeR l.dedup

theorem mergeRow_seen_dates (env : Env) (c : Ctx) (sd md5s ph mt : String) (row : Row) :
    (mergeRow env c sd md5s ph mt row).seen_dates =
      joinSemis (dedupSortStr (sd :: splitSemiParts row.seen_dates)) := rfl

theorem mergeRow_days_seen (env : Env) (c : Ctx) (sd md5s ph mt : String) (row : Row) :
    (mergeRow env c sd md5s ph mt row).days_seen =
      toString (dedupSortStr (sd :: splitSemiParts row.seen_dates)).length := rfl

/-- C6: after every (successful) `observe_image` call whose resolved
observation date is a well-formed date string (non-empty, no `;` — as every
`YYYY-MM-DD` date is), the observed record's `days_seen` equals the number
of distinct dates parsed back out of its `seen_dates` field, and
`seen_dates` is stored deduplicated and sorted. -/
theorem c6_days_seen_invariant (env : Env) (L : Ledger) (md5s ph : String) (c : Ctx)
    (L2 : Ledger) (bid t : String)
    (hob : observeImage env L md5s ph c = some (L2, bid, t))
    (hsd_ne : (if c.seen_date = "" then env.today else c.seen_date) ≠ "")
    (hsd_clean : ';' ∉ (if c.seen_date = "" then env.today else c.seen_date).data) :
    DatesOkAt L2 bid := by
  rw [observeImage_eq] at hob
  rcases hrow : (if (classifyImpl env.maxDist L md5s ph).2 = "new"
      then some (freshRow (classifyImpl env.maxDist L md5s ph).1 c.site
        (if c.seen_date = "" then env.today else c.seen_date)
        c.example_path c.example_rel md5s ph)
      else lookupA L.rows (classifyImpl env.maxDist L md5s ph).1) with _ | row0
  · rw [hrow] at hob
    simp only [Option.map_none'] at hob
    exact Option.noConfusion hob
  · rw [hrow] at hob
    simp only [Option.map_some'] at hob
    injection hob with hob
    have hL2 : L2 = ⟨insertA L.rows (classifyImpl env.maxDist L md5s ph).1
        (mergeRow env c (if c.seen_date = "" then env.today else c.seen_date)
          md5s ph (classifyImpl env.maxDist L md5s ph).2 row0),
        insertA L.byMd5 md5s (classifyImpl env.maxDist L md5s ph).1,
        insertA L.byPhash ph (classifyImpl env.maxDist L md5s ph).1⟩ :=
      (congrArg Prod.fst hob).symm
    have hbid : bid = (classifyImpl env.maxDist L md5s ph).1 :=
      (congrArg (fun y => y.2.1) hob).symm
    set sd := if c.seen_date = "" then env.today else c.seen_date with hsd
    set merged := mergeRow env c sd md5s ph (classifyImpl env.maxDist L md5s ph).2 row0
      with hmerged
    have hlk : lookupA L2.rows bid = some merged := by
      rw [hL2, hbid]
      exact lookupA_insertA_self _ _ _
    unfold DatesOkAt
    rw [hlk]
    simp only [Option.elim]
    set ds := dedupSortStr (sd :: splitSemiParts row0.seen_dates) with hds
    have hmem : ∀ x ∈ ds, x ≠ "" ∧ ';' ∉ x.data := by
      intro x hx
      rcases List.mem_cons.mp ((mem_dedupSortStr _ x).mp hx) with hx' | hx'
      · rw [hx']
        exact ⟨hsd_ne, hsd_clean⟩
      · exact splitSemiParts_props _ x hx'
    have hround : splitSemiParts merged.seen_dates = ds := by
      rw [hmerged, mergeRow_seen_dates, ← hds]
      exact splitSemiParts_joinSemis ds hmem
    refine ⟨?_, ?_, ?_, ?_⟩
    · rw [hround, hmerged, mergeRow_days_seen, ← hds]
    · rw [hround]
      exact nodup_dedupSortStr _
    · rw [hround]
      exact sorted_dedupSortStr _
    · rw [hround, hmerged, mergeRow_seen_dates, ← hds]

/-- Witness for C6 at a concrete observation. -/
theorem c6_days_seen_invariant_witness : DatesOkAt ledgerAfterOne "bn_aa" :=
  c6_days_seen_invariant envW emptyLedger "aa" "00" ctxW ledgerAfterOne "bn_aa" "new"
    (by decide) (by decide) (by decide)

/-! ## C3: save → reload round trip -/

theorem loadFold_byMd5 (rs : List Row) (L0 : Ledger) :
    (rs.foldl loadStep L0).byMd5 =
      rs.foldl (fun a r => if r.banner_id ≠ "" ∧ r.md5 ≠ "" then
        insertA a r.md5 r.banner_id else a) L0.byMd5 := by
  induction rs generalizing L0 with
  | nil => rfl
  | cons r t ih =>
    simp only [List.foldl_cons]
    rw [ih]
    by_cases hb : r.banner_id = ""
    · simp [loadStep, hb]
    · by_cases hm : r.md5 = ""
      · simp [loadStep, hb, hm]
      · simp [loadStep, hb, hm]

theorem loadFold_byPhash (rs : List Row) (L0 : Ledger) :
    (rs.foldl loadStep L0).byPhash =
      rs.foldl (fun a r => if r.banner_id ≠ "" ∧ r.phash ≠ "" then
        insertA a r.phash r.banner_id else a) L0.byPhash := by
  induction rs generalizing L0 with
  | nil => rfl
  | cons r t ih =>
    simp only [List.foldl_cons]
    rw [ih]
    by_cases hb : r.banner_id = ""
    · simp [loadStep, hb]
    · by_cases hm : r.phash = ""
      · simp [loadStep, hb, hm]
      · simp [loadStep, hb, hm]

theorem loadFold_rows (l : List (String × Row)) (L0 : Ledger)
    (hids : ∀ p ∈ l, p.2.banner_id = p.1 ∧ p.1 ≠ "")
    (hnd : ((L0.rows.map Prod.fst) ++ l.map Prod.fst).Nodup) :
    ((l.map Prod.snd).foldl loadStep L0).rows = L0.rows ++ l := by
  induction l generalizing L0 with
  | nil => simp
  | cons p t ih =>
    obtain ⟨hpid, hpne⟩ := hids p (List.mem_cons_self _ _)
    simp only [List.map_cons, List.foldl_cons]
    have hkey : p.1 ∉ L0.rows.map Prod.fst := by
      intro hk
      rw [List.nodup_append] at hnd
      exact hnd.2.2 hk (by simp)
    have hstep : loadStep L0 p.2 =
        ⟨L0.rows ++ [(p.1, p.2)],
         if p.2.md5 ≠ "" then insertA L0.byMd5 p.2.md5 p.2.banner_id else L0.byMd5,
         if p.2.phash ≠ "" then insertA L0.byPhash p.2.phash p.2.banner_id else L0.byPhash⟩ := by
      unfold loadStep
      rw [if_neg (hpid ▸ hpne), hpid]
      rw [insertA_of_key_not_mem _ _ _ hkey]
    rw [hstep]
    have hrows : (⟨L0.rows ++ [(p.1, p.2)],
        if p.2.md5 ≠ "" then insertA L0.byMd5 p.2.md5 p.2.banner_id else L0.byMd5,
        if p.2.phash ≠ "" then insertA L0.byPhash p.2.phash p.2.banner_id else L0.byPhash⟩ :
        Ledger).rows = L0.rows ++ [(p.1, p.2)] := rfl
    rw [ih _ (fun q hq => hids q (List.mem_cons_of_mem _ hq))
      (by rw [hrows, List.map_append, List.append_assoc]; simpa using hnd)]
    rw [hrows, List.append_assoc]
    rfl

/-- C3 counterexample inputs: two observations, the second a near-match
merged into the first record, leaving a stale `_by_md5` entry. -/
def md5fPair : Nat → String := fun n => if n = 1 then "bb" else "aa"

def phfPair : Nat → Option String := fun n => some (if n = 1 then "01" else "00")

def ledgerPair : Ledger := runTrace envW md5fPair phfPair [(0, ctxW), (1, ctxW)]

/-- C3 counterexample: after observing bytes with fingerprints
`("aa","00")` (new record) and `("bb","01")` (near match merged into the
same record), the in-memory exact-digest index still holds the stale key
`"aa"`, but saving and reloading drops it: the reloaded index contents
differ from the saved instance's. -/
theorem c3_reload_drops_stale_index :
    lookupA (loadRows (saveRows ledgerPair)).byMd5 "aa" ≠
      lookupA ledgerPair.byMd5 "aa" := by decide

/-- C3 as amended: saving then reloading reproduces the record collection
field-for-field (for any ledger whose rows carry their own key as
`banner_id`, as all ledger-built rows do), but the reloaded index contents
are the indexes *rebuilt from the records' current fingerprints*; stale
entries for superseded fingerprints are not reproduced. -/
theorem c3_roundtrip_records (L : Ledger)
    (hids : ∀ p ∈ L.rows, p.2.banner_id = p.1 ∧ p.1 ≠ "")
    (hnd : (L.rows.map Prod.fst).Nodup) :
    (loadRows (saveRows L)).rows = L.rows ∧
    (loadRows (saveRows L)).byMd5 = mdIndexOfRows (saveRows L) ∧
    (loadRows (saveRows L)).byPhash = phIndexOfRows (saveRows L) := by
  refine ⟨?_, ?_, ?_⟩
  · have := loadFold_rows L.rows emptyLedger hids (by simpa using hnd)
    simpa [loadRows, saveRows, emptyLedger] using this
  · exact loadFold_byMd5 (saveRows L) emptyLedger
  · exact loadFold_byPhash (saveRows L) emptyLedger

/-- Witness for C3's amended claim at a concrete one-record ledger. -/
theorem c3_roundtrip_records_witness :
    (loadRows (saveRows ledgerAfterOne)).rows = ledgerAfterOne.rows ∧
    (loadRows (saveRows ledgerAfterOne)).byMd5 = mdIndexOfRows (saveRows ledgerAfterOne) ∧
    (loadRows (saveRows ledgerAfterOne)).byPhash = phIndexOfRows (saveRows ledgerAfterOne) :=
  c3_roundtrip_records ledgerAfterOne (by decide) (by decide)

/-! ## C1: classification -/

theorem find?_congr {α : Type} (l : List α) (f g : α → Bool)
    (h : ∀ x ∈ l, f x = g x) : l.find? f = l.find? g := by
  induction l with
  | nil => rfl
  | cons x t ih =>
    have hx := h x (List.mem_cons_self _ _)
    simp only [List.find?_cons]
    rw [hx]
    cases g x
    · exact ih (fun y hy => h y (List.mem_cons_of_mem _ hy))
    · rfl

theorem exists_min_elem {α : Type} (l : List α) (f : α → Nat) (h : l ≠ []) :
    ∃ p ∈ l, ∀ q ∈ l, f p ≤ f q := by
  induction l with
  | nil => exact absurd rfl h
  | cons x t ih =>
    cases t with
    | nil =>
      refine ⟨x, List.mem_cons_self _ _, ?_⟩
      intro q hq
      rcases List.mem_cons.mp hq with hq | hq
      · rw [hq]
      · simp at hq
    | cons y t2 =>
      obtain ⟨p, hp, hmin⟩ := ih (by simp)
      by_cases hc : f x ≤ f p
      · refine ⟨x, List.mem_cons_self _ _, ?_⟩
        intro q hq
        rcases List.mem_cons.mp hq with hq | hq
        · rw [hq]
        · exact hc.trans (hmin q hq)
      · refine ⟨p, List.mem_cons_of_mem _ hp, ?_⟩
        intro q hq
        rcases List.mem_cons.mp hq with hq | hq
        · rw [hq]; exact le_of_not_le hc
        · exact hmin q hq

/-- The running-minimum scan of `_find_by_phash_near`, characterised: it
returns the first candidate (non-empty stored phash) whose distance is
minimal among all candidates and strictly below the accumulator, or the
accumulator unchanged when no candidate beats it. -/
theorem scanNear_eq (ph : String) (l : List (String × Row)) (b0 : Option String) (d0 : Nat) :
    scanNear ph l (b0, d0) =
      match (l.filter fun p => p.2.phash ≠ "").find? (fun p =>
          ((l.filter fun p => p.2.phash ≠ "").all fun q =>
            phashDist ph p.2.phash ≤ phashDist ph q.2.phash) &&
          decide (phashDist ph p.2.phash < d0)) with
      | some p => (some p.1, phashDist ph p.2.phash)
      | none => (b0, d0) := by
  induction l generalizing b0 d0 with
  | nil => rfl
  | cons hd t ih =>
    obtain ⟨k, row⟩ := hd
    by_cases hpred : row.phash = ""
    · have hf : (((k, row) :: t).filter fun p => p.2.phash ≠ "") =
          t.filter fun p => p.2.phash ≠ "" := by
        simp [hpred]
      rw [hf]
      simp only [scanNear, if_pos hpred]
      exact ih b0 d0
    · have hf : (((k, row) :: t).filter fun p => p.2.phash ≠ "") =
          (k, row) :: (t.filter fun p => p.2.phash ≠ "") := by
        simp [hpred]
      rw [hf]
      set d := phashDist ph row.phash with hd
      set ct := t.filter fun p : String × Row => p.2.phash ≠ "" with hct
      by_cases hlt : d < d0
      · have hstep : scanNear ph ((k, row) :: t) (b0, d0) = scanNear ph t (some k, d) := by
          simp only [scanNear, if_neg hpred]
          rw [if_pos hlt]
        rw [hstep, ih (some k) d]
        by_cases himp : ∃ q ∈ ct, phashDist ph q.2.phash < d
        · obtain ⟨q0, hq0, hq0lt⟩ := himp
          have hhead : ((((k, row) :: ct).all fun q =>
              phashDist ph (k, row).2.phash ≤ phashDist ph q.2.phash) &&
              decide (phashDist ph (k, row).2.phash < d0)) = false := by
            have : ¬ ∀ x ∈ (k, row) :: ct,
                decide (phashDist ph row.phash ≤ phashDist ph x.2.phash) = true := by
              intro hall
              have := hall q0 (List.mem_cons_of_mem _ hq0)
              rw [decide_eq_true_iff] at this
              exact absurd hq0lt (not_lt.mpr this)
            rcases Bool.eq_false_or_eq_true (((k, row) :: ct).all fun q =>
                phashDist ph (k, row).2.phash ≤ phashDist ph q.2.phash) with hx | hx
            · rw [List.all_eq_true] at hx
              exact absurd hx this
            · rw [hx]; rfl
          rw [List.find?_cons, hhead]
          dsimp only
          have hcongr : ct.find? (fun p =>
              (((k, row) :: ct).all fun q =>
                phashDist ph p.2.phash ≤ phashDist ph q.2.phash) &&
              decide (phashDist ph p.2.phash < d0)) =
              ct.find? (fun p =>
              (ct.all fun q => phashDist ph p.2.phash ≤ phashDist ph q.2.phash) &&
              decide (phashDist ph p.2.phash < d)) := by
            apply find?_congr
            intro x hx
            rcases Bool.eq_false_or_eq_true (ct.all fun q =>
                phashDist ph x.2.phash ≤ phashDist ph q.2.phash) with hall | hall
            · have hxq0 : phashDist ph x.2.phash ≤ phashDist ph q0.2.phash := by
                rw [List.all_eq_true] at hall
                exact decide_eq_true_iff.mp (hall q0 hq0)
              have hxd : phashDist ph x.2.phash < d := lt_of_le_of_lt hxq0 hq0lt
              simp [List.all_cons, hall, le_of_lt hxd, hxd, hxd.trans hlt]
            · simp [List.all_cons, hall]
          rw [hcongr]
          rcases hfind : ct.find? (fun p =>
              (ct.all fun q => phashDist ph p.2.phash ≤ phashDist ph q.2.phash) &&
              decide (phashDist ph p.2.phash < d)) with _ | q
          · exfalso
            have hne : ct ≠ [] := by
              intro he
              rw [he] at hq0
              simp at hq0
            obtain ⟨pm, hpm, hpmin⟩ :=
              exists_min_elem ct (fun p => phashDist ph p.2.phash) hne
            have : (fun p => ((ct.all fun q =>
                phashDist ph p.2.phash ≤ phashDist ph q.2.phash) &&
                decide (phashDist ph p.2.phash < d))) pm = true := by
              have h1 : (ct.all fun q =>
                  phashDist ph pm.2.phash ≤ phashDist ph q.2.phash) = true := by
                rw [List.all_eq_true]
                intro x hx
                exact decide_eq_true_iff.mpr (hpmin x hx)
              have h2 : phashDist ph pm.2.phash < d :=
                lt_of_le_of_lt (hpmin q0 hq0) hq0lt
              simp [h1, h2]
            rw [List.find?_eq_none] at hfind
            exact absurd this (by simpa using hfind pm hpm)
          · rw [hfind]
        · push_neg at himp
          have hhead : ((((k, row) :: ct).all fun q =>
              phashDist ph (k, row).2.phash ≤ phashDist ph q.2.phash) &&
              decide (phashDist ph (k, row).2.phash < d0)) = true := by
            have hall : (((k, row) :: ct).all fun q =>
                phashDist ph (k, row).2.phash ≤ phashDist ph q.2.phash) = true := by
              rw [List.all_eq_true]
              intro x hx
              rcases List.mem_cons.mp hx with hx | hx
              · rw [hx]
                simp
              · exact decide_eq_true_iff.mpr (himp x hx)
            simp [hall, hlt]
          rw [List.find?_cons, hhead]
          dsimp only
          have hnone : ct.find? (fun p =>
              (ct.all fun q => phashDist ph p.2.phash ≤ phashDist ph q.2.phash) &&
              decide (phashDist ph p.2.phash < d)) = none := by
            rw [List.find?_eq_none]
            intro x hx
            have : ¬ phashDist ph x.2.phash < d := not_lt.mpr (himp x hx)
            simp [this]
          rw [hnone]
      · have hstep : scanNear ph ((k, row) :: t) (b0, d0) = scanNear ph t (b0, d0) := by
          simp only [scanNear, if_neg hpred]
          rw [if_neg hlt]
        rw [hstep, ih b0 d0]
        have hhead : ((((k, row) :: ct).all fun q =>
            phashDist ph (k, row).2.phash ≤ phashDist ph q.2.phash) &&
            decide (phashDist ph (k, row).2.phash < d0)) = false := by
          have : decide (phashDist ph (k, row).2.phash < d0) = false := by
            simpa using hlt
          simp [this]
        rw [List.find?_cons, hhead]
        dsimp only
        have hcongr : ct.find? (fun p =>
            (((k, row) :: ct).all fun q =>
              phashDist ph p.2.phash ≤ phashDist ph q.2.phash) &&
            decide (phashDist ph p.2.phash < d0)) =
            ct.find? (fun p =>
            (ct.all fun q => phashDist ph p.2.phash ≤ phashDist ph q.2.phash) &&
            decide (phashDist ph p.2.phash < d0)) := by
          apply find?_congr
          intro x hx
          rcases Bool.eq_false_or_eq_true (decide (phashDist ph x.2.phash < d0)) with hxlt | hxlt
          · have hxd0 : phashDist ph x.2.phash < d0 := of_decide_eq_true hxlt
            have hxd : phashDist ph x.2.phash ≤ d := le_of_lt (lt_of_lt_of_le hxd0 (not_lt.mp hlt))
            simp [List.all_cons, hxd, hxlt]
          · simp [hxlt]
        rw [hcongr]

/-- The implementation's classification (exact-index hit, then
`_find_by_phash_near` with Python truthiness on the near id, then new)
agrees with the claim's description of it, for well-formed ledger state. -/
theorem classifyImpl_eq_spec (maxDist : Nat) (L : Ledger) (md5s ph : String)
    (hkeys : ∀ p ∈ L.rows, p.1 ≠ "")
    (hvalsp : ∀ q ∈ L.byPhash, q.2 ≠ "")
    (hmax : maxDist < 10 ^ 9) :
    classifyImpl maxDist L md5s ph = classifySpec maxDist L md5s ph := by
  unfold classifyImpl classifySpec findByPhashNear
  cases hmd : lookupA L.byMd5 md5s with
  | some b => rfl
  | none =>
    cases hph : lookupA L.byPhash ph with
    | some b =>
      have hb : b ≠ "" := hvalsp (ph, b) (lookupA_mem _ _ _ hph)
      simp [hb]
    | none =>
      rw [scanNear_eq]
      cases hfind : (L.rows.filter fun p => p.2.phash ≠ "").find? (fun p =>
          ((L.rows.filter fun p => p.2.phash ≠ "").all fun q =>
            phashDist ph p.2.phash ≤ phashDist ph q.2.phash) &&
          decide (phashDist ph p.2.phash < 10 ^ 9)) with
      | none =>
        have hany : ((L.rows.filter fun p => p.2.phash ≠ "").any
            (fun p => phashDist ph p.2.phash ≤ maxDist)) = false := by
          rcases Bool.eq_false_or_eq_true ((L.rows.filter fun p => p.2.phash ≠ "").any
              (fun p => phashDist ph p.2.phash ≤ maxDist)) with hx | hx
          · exfalso
            rw [List.any_eq_true] at hx
            obtain ⟨q0, hq0, hq0le⟩ := hx
            have hq0le' : phashDist ph q0.2.phash ≤ maxDist := of_decide_eq_true hq0le
            have hne : (L.rows.filter fun p : String × Row => p.2.phash ≠ "") ≠ [] := by
              intro he
              rw [he] at hq0
              simp at hq0
            obtain ⟨pm, hpm, hpmin⟩ := exists_min_elem _
              (fun p : String × Row => phashDist ph p.2.phash) hne
            rw [List.find?_eq_none] at hfind
            have h1 : ((L.rows.filter fun p : String × Row => p.2.phash ≠ "").all fun q =>
                phashDist ph pm.2.phash ≤ phashDist ph q.2.phash) = true := by
              rw [List.all_eq_true]
              intro x hx2
              exact decide_eq_true_iff.mpr (hpmin x hx2)
            have h2 : phashDist ph pm.2.phash < 10 ^ 9 :=
              lt_of_le_of_lt (le_trans (hpmin q0 hq0) hq0le') hmax
            have hcontr : (((L.rows.filter fun p : String × Row =>
                p.2.phash ≠ "").all fun q =>
                phashDist ph pm.2.phash ≤ phashDist ph q.2.phash) &&
                decide (phashDist ph pm.2.phash < 10 ^ 9)) = true := by
              rw [h1]
              simp only [Bool.true_and]
              exact decide_eq_true_iff.mpr h2
            exact hfind pm hpm hcontr
          · exact hx
        dsimp only
        rw [hany]
        rfl
      | some p =>
        have hcond := List.find?_some hfind
        rw [Bool.and_eq_true] at hcond
        have hall : ((L.rows.filter fun p0 : String × Row => p0.2.phash ≠ "").all fun q =>
            phashDist ph p.2.phash ≤ phashDist ph q.2.phash) = true := hcond.1
        have hmem := List.mem_of_find?_eq_some hfind
        have hpk : p.1 ≠ "" := hkeys p (List.mem_of_mem_filter hmem)
        dsimp only
        by_cases hthr : phashDist ph p.2.phash ≤ maxDist
        · have hsel : (if p.1 ≠ "" ∧ phashDist ph p.2.phash ≤ maxDist
              then some p.1 else none) = some p.1 := if_pos ⟨hpk, hthr⟩
          rw [hsel]
          have hany : ((L.rows.filter fun p => p.2.phash ≠ "").any
              (fun p => phashDist ph p.2.phash ≤ maxDist)) = true := by
            rw [List.any_eq_true]
            exact ⟨p, hmem, decide_eq_true_iff.mpr hthr⟩
          rw [hany]
          have hcongr2 : (L.rows.filter fun p => p.2.phash ≠ "").find? (fun p =>
              (L.rows.filter fun p => p.2.phash ≠ "").all
                (fun q => phashDist ph p.2.phash ≤ phashDist ph q.2.phash)) =
              (L.rows.filter fun p => p.2.phash ≠ "").find? (fun p =>
              ((L.rows.filter fun p => p.2.phash ≠ "").all fun q =>
                phashDist ph p.2.phash ≤ phashDist ph q.2.phash) &&
              decide (phashDist ph p.2.phash < 10 ^ 9)) := by
            apply find?_congr
            intro x hx
            rcases Bool.eq_false_or_eq_true ((L.rows.filter fun p0 : String × Row =>
                p0.2.phash ≠ "").all fun q =>
                phashDist ph x.2.phash ≤ phashDist ph q.2.phash) with hx2 | hx2
            · have hxp : phashDist ph x.2.phash ≤ phashDist ph p.2.phash := by
                rw [List.all_eq_true] at hx2
                exact decide_eq_true_iff.mp (hx2 p hmem)
              have hxlt : phashDist ph x.2.phash < 10 ^ 9 :=
                lt_of_le_of_lt (le_trans hxp hthr) hmax
              rw [hx2, decide_eq_true_iff.mpr hxlt]
              rfl
            · rw [hx2]
              rfl
          rw [hcongr2, hfind]
          simp [hpk]
        · have hsel : (if p.1 ≠ "" ∧ phashDist ph p.2.phash ≤ maxDist
              then some p.1 else none) = none := if_neg (fun hc => hthr hc.2)
          rw [hsel]
          have hany : ((L.rows.filter fun p => p.2.phash ≠ "").any
              (fun p => phashDist ph p.2.phash ≤ maxDist)) = false := by
            rcases Bool.eq_false_or_eq_true ((L.rows.filter fun p => p.2.phash ≠ "").any
                (fun p => phashDist ph p.2.phash ≤ maxDist)) with hx | hx
            · exfalso
              rw [List.any_eq_true] at hx
              obtain ⟨q0, hq0, hq0le⟩ := hx
              have : phashDist ph p.2.phash ≤ phashDist ph q0.2.phash := by
                rw [List.all_eq_true] at hall
                exact decide_eq_true_iff.mp (hall q0 hq0)
              exact hthr (le_trans this (of_decide_eq_true hq0le))
            · exact hx
          rw [hany]
          rfl

theorem scanNear_fst_mem (ph : String) (l : List (String × Row))
    (acc : Option String × Nat) (b : String) (d : Nat)
    (h : scanNear ph l acc = (some b, d)) :
    acc.1 = some b ∨ b ∈ l.map Prod.fst := by
  induction l generalizing acc with
  | nil =>
    left
    simp only [scanNear] at h
    rw [h]
  | cons hd t ih =>
    obtain ⟨k, row⟩ := hd
    by_cases hpred : row.phash = ""
    · simp only [scanNear, if_pos hpred] at h
      rcases ih acc h with h' | h'
      · exact Or.inl h'
      · exact Or.inr (List.mem_cons_of_mem _ h')
    · by_cases hlt : phashDist ph row.phash < acc.2
      · have hstep : scanNear ph ((k, row) :: t) acc =
            scanNear ph t (some k, phashDist ph row.phash) := by
          simp only [scanNear, if_neg hpred]
          rw [if_pos hlt]
        rw [hstep] at h
        rcases ih _ h with h' | h'
        · simp at h'
          exact Or.inr (by simp [h'])
        · exact Or.inr (List.mem_cons_of_mem _ h')
      · have hstep : scanNear ph ((k, row) :: t) acc = scanNear ph t acc := by
          simp only [scanNear, if_neg hpred]
          rw [if_neg hlt]
        rw [hstep] at h
        rcases ih acc h with h' | h'
        · exact Or.inl h'
        · exact Or.inr (List.mem_cons_of_mem _ h')

/-- C1: for every well-formed ledger state (index values name existing,
non-empty-keyed records, threshold below the scan's sentinel), a successful
`observe_image` returns exactly the classification the claim describes —
exact-digest index hit first; else an exact similarity-index hit or the
first record at minimum symmetric distance when that minimum is within the
threshold, as `"near"`; else a new record whose id derives from the digest.
The distance used is symmetric. -/
theorem c1_observe_classification (env : Env) (L : Ledger) (md5s ph : String) (c : Ctx)
    (hwf1 : ∀ q ∈ L.byMd5, (lookupA L.rows q.2).isSome = true)
    (hwf2 : ∀ q ∈ L.byPhash, (lookupA L.rows q.2).isSome = true)
    (hkeys : ∀ p ∈ L.rows, p.1 ≠ "")
    (hvalsp : ∀ q ∈ L.byPhash, q.2 ≠ "")
    (hmax : env.maxDist < 10 ^ 9) :
    (observeImage env L md5s ph c).map (fun y => (y.2.1, y.2.2)) =
      some (classifySpec env.maxDist L md5s ph) ∧
    ∀ a b : String, phashDist a b = phashDist b a := by
  refine ⟨?_, phashDist_comm⟩
  have hcl := classifyImpl_eq_spec env.maxDist L md5s ph hkeys hvalsp hmax
  rw [observeImage_eq]
  have hrow : (if (classifyImpl env.maxDist L md5s ph).2 = "new"
      then some (freshRow (classifyImpl env.maxDist L md5s ph).1 c.site
        (if c.seen_date = "" then env.today else c.seen_date)
        c.example_path c.example_rel md5s ph)
      else lookupA L.rows (classifyImpl env.maxDist L md5s ph).1).isSome = true := by
    by_cases hnew : (classifyImpl env.maxDist L md5s ph).2 = "new"
    · rw [if_pos hnew]
      rfl
    · rw [if_neg hnew]
      cases hmd : lookupA L.byMd5 md5s with
      | some b =>
        have hcb : classifyImpl env.maxDist L md5s ph = (b, "exact") := by
          unfold classifyImpl
          rw [hmd]
        rw [hcb]
        exact hwf1 (md5s, b) (lookupA_mem _ _ _ hmd)
      | none =>
        cases hnear : findByPhashNear env.maxDist L ph with
        | none =>
          exfalso
          apply hnew
          unfold classifyImpl
          rw [hmd, hnear]
        | some nb =>
          by_cases hnb : nb = ""
          · exfalso
            apply hnew
            unfold classifyImpl
            rw [hmd, hnear]
            simp [hnb]
          · have hcb : classifyImpl env.maxDist L md5s ph = (nb, "near") := by
              unfold classifyImpl
              rw [hmd, hnear]
              simp [hnb]
            rw [hcb]
            unfold findByPhashNear at hnear
            cases hph : lookupA L.byPhash ph with
            | some b2 =>
              rw [hph] at hnear
              simp only at hnear
              injection hnear with hnear
              rw [← hnear]
              exact hwf2 (ph, b2) (lookupA_mem _ _ _ hph)
            | none =>
              rw [hph] at hnear
              simp only at hnear
              rcases hscan : scanNear ph L.rows (none, 10 ^ 9) with ⟨ob, dres⟩
              rw [hscan] at hnear
              cases ob with
              | none => simp at hnear
              | some b3 =>
                simp only at hnear
                by_cases hcond : b3 ≠ "" ∧ dres ≤ env.maxDist
                · rw [if_pos hcond] at hnear
                  injection hnear with hnear
                  rcases scanNear_fst_mem ph L.rows _ b3 dres hscan with h' | h'
                  · simp at h'
                  · rw [← hnear]
                    exact lookupA_isSome_of_key_mem _ _ h'
                · rw [if_neg hcond] at hnear
                  exact Option.noConfusion hnear
  rw [Option.isSome_iff_exists] at hrow
  obtain ⟨row0, hrow0⟩ := hrow
  rw [hrow0]
  simp only [Option.map_some']
  rw [hcl]

/-- Witness for C1 at a concrete near-match observation. -/
theorem c1_observe_classification_witness :
    (observeImage envW ledgerAfterOne "bb" "01" ctxW).map (fun y => (y.2.1, y.2.2)) =
      some (classifySpec envW.maxDist ledgerAfterOne "bb" "01") :=
  (c1_observe_classification envW ledgerAfterOne "bb" "01" ctxW
    (by decide) (by decide) (by decide) (by decide) (by decide)).1

/-! ## C2: the index-points-back invariant -/

theorem mergeRow_md5 (env : Env) (c : Ctx) (sd md5s ph mt : String) (row : Row) :
    (mergeRow env c sd md5s ph mt row).md5 = md5s := rfl

theorem mergeRow_phash (env : Env) (c : Ctx) (sd md5s ph mt : String) (row : Row) :
    (mergeRow env c sd md5s ph mt row).phash = ph := rfl

/-- The inductive invariant carried along a trace of observations:
well-formed keys and index values, every record's current fingerprints
indexed back to itself, and every exact-digest index entry backed by an
actually observed image whose similarity hash is indexed at the same id. -/
def LedgerInv {β : Type} (md5f : β → String) (phf : β → Option String)
    (obs : List β) (L : Ledger) : Prop :=
  (L.rows.map Prod.fst).Nodup ∧
  (∀ p ∈ L.rows, p.1 ≠ "") ∧
  (∀ q ∈ L.byMd5, q.2 ≠ "") ∧
  (∀ q ∈ L.byPhash, q.2 ≠ "") ∧
  (∀ p ∈ L.rows,
    lookupA L.byMd5 p.2.md5 = some p.1 ∧ lookupA L.byPhash p.2.phash = some p.1) ∧
  (∀ m b, lookupA L.byMd5 m = some b →
    ∃ x ∈ obs, md5f x = m ∧ ∃ px, phf x = some px ∧ lookupA L.byPhash px = some b)

theorem ledgerInv_empty {β : Type} (md5f : β → String) (phf : β → Option String) :
    LedgerInv md5f phf [] emptyLedger := by
  refine ⟨List.nodup_nil, ?_, ?_, ?_, ?_, ?_⟩ <;>
    first
    | intro p hp
      exact absurd hp (List.not_mem_nil p)
    | intro m b hmb
      exact absurd hmb (by simp [emptyLedger, lookupA])

theorem ledgerInv_mono {β : Type} (md5f : β → String) (phf : β → Option String)
    (obs obs' : List β) (hsub : ∀ x ∈ obs, x ∈ obs') (L : Ledger)
    (h : LedgerInv md5f phf obs L) : LedgerInv md5f phf obs' L := by
  obtain ⟨h1, h2, h3, h4, h5, h6⟩ := h
  refine ⟨h1, h2, h3, h4, h5, ?_⟩
  intro m b hmb
  obtain ⟨x, hx, hrest⟩ := h6 m b hmb
  exact ⟨x, hsub x hx, hrest⟩

/-- The three ways `observe_image` can classify an image, with what each
implies about the indexes consulted. -/
theorem classify_route (maxDist : Nat) (L : Ledger) (md5s ph : String) :
    (∃ b0, lookupA L.byMd5 md5s = some b0 ∧
      classifyImpl maxDist L md5s ph = (b0, "exact")) ∨
    (lookupA L.byMd5 md5s = none ∧
      ((∃ nb, nb ≠ "" ∧ classifyImpl maxDist L md5s ph = (nb, "near") ∧
        (lookupA L.byPhash ph = some nb ∨ lookupA L.byPhash ph = none)) ∨
       (classifyImpl maxDist L md5s ph = ("bn_" ++ md5s, "new") ∧
        (lookupA L.byPhash ph = none ∨ lookupA L.byPhash ph = some "")))) := by
  cases hmd : lookupA L.byMd5 md5s with
  | some b0 =>
    left
    refine ⟨b0, rfl, ?_⟩
    unfold classifyImpl
    rw [hmd]
  | none =>
    right
    refine ⟨rfl, ?_⟩
    cases hnear : findByPhashNear maxDist L ph with
    | none =>
      right
      constructor
      · unfold classifyImpl
        rw [hmd, hnear]
      · left
        unfold findByPhashNear at hnear
        cases hph : lookupA L.byPhash ph with
        | some b2 =>
          rw [hph] at hnear
          exact Option.noConfusion hnear
        | none => rfl
    | some nb =>
      by_cases hnb : nb = ""
      · right
        constructor
        · unfold classifyImpl
          rw [hmd, hnear]
          simp [hnb]
        · unfold findByPhashNear at hnear
          cases hph : lookupA L.byPhash ph with
          | some b2 =>
            rw [hph] at hnear
            injection hnear with hnear
            right
            rw [hnear, hnb]
          | none =>
            rw [hph] at hnear
            rcases hscan : scanNear ph L.rows (none, 10 ^ 9) with ⟨ob, dres⟩
            rw [hscan] at hnear
            cases ob with
            | none => exact Option.noConfusion hnear
            | some b3 =>
              simp only at hnear
              by_cases hcond : b3 ≠ "" ∧ dres ≤ maxDist
              · rw [if_pos hcond] at hnear
                injection hnear with hnear
                exact absurd (hnear ▸ hcond.1) (fun hc => hc hnb)
              · rw [if_neg hcond] at hnear
                exact Option.noConfusion hnear
      · left
        refine ⟨nb, hnb, ?_, ?_⟩
        · unfold classifyImpl
          rw [hmd, hnear]
          simp [hnb]
        · unfold findByPhashNear at hnear
          cases hph : lookupA L.byPhash ph with
          | some b2 =>
            rw [hph] at hnear
            injection hnear with hnear
            left
            rw [hnear]
          | none => right; rfl

/-- One observation step preserves the ledger invariant, provided the exact
digest never collides on the observed bytes (`md5f` injective — the
spec's accepted-as-negligible collision assumption). -/
theorem ledgerInv_step {β : Type} (env : Env) (md5f : β → String)
    (phf : β → Option String) (hinj : Function.Injective md5f)
    (obs : List β) (L : Ledger) (hInv : LedgerInv md5f phf obs L) (b : β) (c : Ctx) :
    LedgerInv md5f phf (obs ++ [b]) ((observeStep env md5f phf L b c).1) := by
  have hmono := ledgerInv_mono md5f phf obs (obs ++ [b])
    (fun x hx => List.mem_append_left _ hx) L hInv
  cases hph : phf b with
  | none =>
    simp only [observeStep, hph]
    exact hmono
  | some ph =>
    cases hob : observeImage env L (md5f b) ph c with
    | none =>
      simp only [observeStep, hph, hob]
      exact hmono
    | some res =>
      obtain ⟨L2, bid', t'⟩ := res
      have hstate : (observeStep env md5f phf L b c).1 = L2 := by
        simp [observeStep, hph, hob]
      rw [hstate]
      rw [observeImage_eq] at hob
      rcases hrow : (if (classifyImpl env.maxDist L (md5f b) ph).2 = "new"
          then some (freshRow (classifyImpl env.maxDist L (md5f b) ph).1 c.site
            (if c.seen_date = "" then env.today else c.seen_date)
            c.example_path c.example_rel (md5f b) ph)
          else lookupA L.rows (classifyImpl env.maxDist L (md5f b) ph).1) with _ | row0
      · rw [hrow] at hob
        simp only [Option.map_none'] at hob
        exact Option.noConfusion hob
      rw [hrow] at hob
      simp only [Option.map_some'] at hob
      injection hob with hob
      have hL2 : L2 = ⟨insertA L.rows (classifyImpl env.maxDist L (md5f b) ph).1
          (mergeRow env c (if c.seen_date = "" then env.today else c.seen_date)
            (md5f b) ph (classifyImpl env.maxDist L (md5f b) ph).2 row0),
          insertA L.byMd5 (md5f b) (classifyImpl env.maxDist L (md5f b) ph).1,
          insertA L.byPhash ph (classifyImpl env.maxDist L (md5f b) ph).1⟩ :=
        (congrArg Prod.fst hob).symm
      obtain ⟨hND, hRK, hNZm, hNZp, hI, hK⟩ := hInv
      set md5s := md5f b with hmd5s
      set bid := (classifyImpl env.maxDist L md5s ph).1 with hbid
      set merged := mergeRow env c (if c.seen_date = "" then env.today else c.seen_date)
        md5s ph (classifyImpl env.maxDist L md5s ph).2 row0 with hmerged
      -- route facts
      have hroutes := classify_route env.maxDist L md5s ph
      have hbid_ne : bid ≠ "" := by
        rcases hroutes with ⟨b0, hmd, hcl⟩ | ⟨hmd, ⟨nb, hnb, hcl, _⟩ | ⟨hcl, _⟩⟩
        · rw [hbid, hcl]
          exact hNZm (md5s, b0) (lookupA_mem _ _ _ hmd)
        · rw [hbid, hcl]
          exact hnb
        · rw [hbid, hcl]
          exact bn_prefix_ne_empty md5s
      have hmdstat : lookupA L.byMd5 md5s = some bid ∨ lookupA L.byMd5 md5s = none := by
        rcases hroutes with ⟨b0, hmd, hcl⟩ | ⟨hmd, _⟩
        · left
          rw [hbid, hcl, hmd]
        · right
          exact hmd
      have hphstat : lookupA L.byPhash ph = some bid ∨ lookupA L.byPhash ph = none ∨
          lookupA L.byPhash ph = some "" := by
        rcases hroutes with ⟨b0, hmd, hcl⟩ | ⟨hmd, ⟨nb, hnb, hcl, hdisj⟩ | ⟨hcl, hdisj⟩⟩
        · left
          obtain ⟨x, _, hxm, px, hpx, hpts⟩ := hK md5s b0 hmd
          have hxb : x = b := hinj hxm
          rw [hxb, hph] at hpx
          injection hpx with hpx
          rw [hpx, hpts, hbid, hcl]
        · rcases hdisj with hd | hd
          · left
            rw [hd, hbid, hcl]
          · right; left
            exact hd
        · rcases hdisj with hd | hd
          · right; left
            exact hd
          · right; right
            exact hd
      rw [hL2]
      refine ⟨?_, ?_, ?_, ?_, ?_, ?_⟩
      · exact nodup_keys_insertA _ _ _ hND
      · intro p hp
        rcases mem_insertA _ _ _ p hp with hp' | hp'
        · rw [hp']
          exact hbid_ne
        · exact hRK p hp'
      · intro q hq
        rcases mem_insertA _ _ _ q hq with hq' | hq'
        · rw [hq']
          exact hbid_ne
        · exact hNZm q hq'
      · intro q hq
        rcases mem_insertA _ _ _ q hq with hq' | hq'
        · rw [hq']
          exact hbid_ne
        · exact hNZp q hq'
      · intro p hp
        rcases (mem_insertA_iff _ _ _ hND p).mp hp with hp' | ⟨hp', hpne⟩
        · rw [hp']
          constructor
          · rw [hmerged, mergeRow_md5]
            exact lookupA_insertA_self _ _ _
          · rw [hmerged, mergeRow_phash]
            exact lookupA_insertA_self _ _ _
        · obtain ⟨hIm, hIp⟩ := hI p hp'
          constructor
          · by_cases hmm : p.2.md5 = md5s
            · exfalso
              rw [hmm] at hIm
              rcases hmdstat with hs | hs
              · rw [hs] at hIm
                injection hIm with hIm
                exact hpne hIm.symm
              · rw [hs] at hIm
                exact Option.noConfusion hIm
            · rw [lookupA_insertA_ne _ _ _ _ hmm]
              exact hIm
          · by_cases hpp : p.2.phash = ph
            · exfalso
              rw [hpp] at hIp
              rcases hphstat with hs | hs | hs
              · rw [hs] at hIp
                injection hIp with hIp
                exact hpne hIp.symm
              · rw [hs] at hIp
                exact Option.noConfusion hIp
              · rw [hs] at hIp
                injection hIp with hIp
                exact hRK p hp' hIp.symm
            · rw [lookupA_insertA_ne _ _ _ _ hpp]
              exact hIp
      · intro m b2 hmb
        by_cases hmm : m = md5s
        · rw [hmm, lookupA_insertA_self] at hmb
          injection hmb with hmb
          refine ⟨b, List.mem_append_right _ (List.mem_singleton.mpr rfl), hmm ▸ rfl, ph, hph, ?_⟩
          rw [← hmb]
          exact lookupA_insertA_self _ _ _
        · rw [lookupA_insertA_ne _ _ _ _ hmm] at hmb
          obtain ⟨x, hx, hxm, px, hpx, hpts⟩ := hK m b2 hmb
          refine ⟨x, List.mem_append_left _ hx, hxm, px, hpx, ?_⟩
          by_cases hpxp : px = ph
          · have hb2 : b2 = bid := by
              rw [hpxp] at hpts
              rcases hphstat with hs | hs | hs
              · rw [hs] at hpts
                injection hpts with hpts
                exact hpts.symm
              · rw [hs] at hpts
                exact Option.noConfusion hpts
              · rw [hs] at hpts
                injection hpts with hpts
                exact absurd hpts.symm (hNZm (m, b2) (lookupA_mem _ _ _ hmb))
            rw [hpxp, hb2]
            exact lookupA_insertA_self _ _ _
          · rw [lookupA_insertA_ne _ _ _ _ hpxp]
            exact hpts

theorem ledgerInv_runTrace_aux {β : Type} (env : Env) (md5f : β → String)
    (phf : β → Option String) (hinj : Function.Injective md5f) :
    ∀ (obs : List (β × Ctx)) (L : Ledger) (obs0 : List β),
      LedgerInv md5f phf obs0 L →
      LedgerInv md5f phf (obs0 ++ obs.map Prod.fst)
        (obs.foldl (fun L o => (observeStep env md5f phf L o.1 o.2).1) L) := by
  intro obs
  induction obs with
  | nil =>
    intro L obs0 h
    simpa using h
  | cons o t ih =>
    intro L obs0 h
    have hstep := ledgerInv_step env md5f phf hinj obs0 L h o.1 o.2
    have := ih _ (obs0 ++ [o.1]) hstep
    rw [List.append_assoc] at this
    simpa using this

/-- C2 as amended: along any trace of observations from an empty store,
provided the short exact digest is collision-free on the observed bytes
(`md5f` injective — the spec accepts collision risk as negligible), after
every call both indexes map every record's current fingerprints back to the
record's own id. -/
theorem c2_index_points_back {β : Type} (env : Env) (md5f : β → String)
    (phf : β → Option String) (hinj : Function.Injective md5f)
    (obs : List (β × Ctx)) :
    IndexPointsBack (runTrace env md5f phf obs) := by
  have h := ledgerInv_runTrace_aux env md5f phf hinj obs emptyLedger []
    (ledgerInv_empty md5f phf)
  exact h.2.2.2.2.1

/-- C2 counterexample fingerprints: observations 0 and 2 are distinct
images sharing the truncated md5 `"aa"` (a digest collision) with different
perceptual hashes. -/
def md5fColl : Nat → String := fun n => if n = 1 then "bb" else "aa"

def phfColl : Nat → Option String := fun n => some (if n = 0 then "00" else "ff")

/-- C2 counterexample: after observing fingerprints `("aa","00")` (new
record `bn_aa`), `("ff",...)` far from `"00"` under md5 `"bb"` (new record
`bn_bb` with phash `"ff"`), and then a digest-colliding image `("aa","ff")`
(exact match into `bn_aa`, which rebinds `_by_phash["ff"]` to `bn_aa`),
record `bn_bb`'s current similarity hash `"ff"` points at `bn_aa` — a
different record.  The claim fails as stated. -/
theorem c2_collision_breaks_invariant :
    ¬ IndexPointsBack (runTrace envW md5fColl phfColl
      [(0, ctxW), (1, ctxW), (2, ctxW)]) := by decide

/-- Witness for C2's amended claim on a one-observation trace with a
trivially injective digest. -/
theorem c2_index_points_back_witness :
    IndexPointsBack (runTrace envW (fun _ : Unit => "aa") (fun _ => some "00")
      [((), ctxW)]) :=
  c2_index_points_back envW (fun _ : Unit => "aa") (fun _ => some "00")
    (fun a b _ => Subsingleton.elim a b) [((), ctxW)]
